import Mathlib

/-!
Verification of the CUDA reduction core of this repository
(include/RAJA/policy/cuda/reduce.hpp).

The file shallowly embeds the device reduction algorithms
(block_reduce, grid_reduce, setup_grid_reduce_atomic, grid_reduce_atomic),
the host bookkeeping (PinnedTally, the host read of a reduction handle)
and the byte predicate bitwize_zero, and proves the properties claimed
about them.

Modelling conventions:
  - machine integers are modelled as Nat or Int; the reduced values are a
    type parameter, folded by an abstract Reducer;
  - a CUDA block is the set of linearized thread ids 0 .. numThreads-1 and
    a grid is the set of linearized block ids 0 .. numBlocks-1, exactly the
    linearizations computed at the top of each device function;
  - warp shuffles exchange values along the lane xor pattern of the source;
  - cross-block interleaving is reduced to the order in which the per-block
    serialized atomic operations hit the counter (tree variant) or to an
    explicit scheduled state machine (atomic variant).
-/

namespace RAJACuda

/-- A reducer as used for the Reducer template parameter of reduce.hpp:
a binary combine and an identity constant (spec section 3). -/
structure Reducer (α : Type) where
  combine : α → α → α
  identity : α

/-- The laws the spec demands of every reducer: combine is commutative,
associative, and identity is a left unit. -/
def ReducerLaws {α : Type} (r : Reducer α) : Prop :=
  (∀ a b, r.combine a b = r.combine b a) ∧
  (∀ a b c, r.combine (r.combine a b) c = r.combine a (r.combine b c)) ∧
  (∀ a, r.combine r.identity a = a)

/-- The CUDA warp size constant WARP_SIZE. -/
def WARP_SIZE : Nat := 32

/-- The MAX_WARPS constant sizing the shared array sd.
Modelled from the spec: an implementation constant large enough to cover the
maximum supported block size (1024 threads, hence 32 warps); the constant
itself lives in policy.hpp which is not part of the sources. -/
def MAX_WARPS : Nat := 32

/-- Fold a list of values with a reducer, starting from the identity. -/
def rfold {α : Type} (r : Reducer α) (l : List α) : α :=
  l.foldl r.combine r.identity

/-! ## block_reduce (reduce.hpp, impl::block_reduce)

The per-thread state is a function from linearized thread id to value.  The
intra-warp loop for (int i = 1; i < WARP_SIZE; i *= 2) appears in two forms:
the unguarded shfl_xor_sync form taken when numThreads is a multiple of
WARP_SIZE, and the guarded shfl_sync form with the lane existence check
srcLane < numThreads taken otherwise.  shfl primitives read the register of
lane (threadId xor i) of the same warp; since i < 32 the xor never leaves
the warp, so the per-thread update reads index t ^^^ i directly. -/

/-- One stride of the unguarded butterfly (lines 222-225):
temp = Reducer(temp, shfl_xor_sync(temp, i)). -/
def warpStepFull {α : Type} (r : Reducer α) (i : Nat) (temp : Nat → α) :
    Nat → α :=
  fun t => r.combine (temp t) (temp (t ^^^ i))

/-- One stride of the guarded butterfly (lines 230-237): srcLane = threadId
xor i, the value is folded only if srcLane < numThreads. -/
def warpStepGuarded {α : Type} (r : Reducer α) (n i : Nat) (temp : Nat → α) :
    Nat → α :=
  fun t => if t ^^^ i < n then r.combine (temp t) (temp (t ^^^ i)) else temp t

/-- The stride loop, unguarded form; k counts the strides 2^0 .. 2^(k-1),
so k = 5 is the loop for (int i = 1; i < WARP_SIZE; i *= 2). -/
def warpLoopFull {α : Type} (r : Reducer α) : Nat → (Nat → α) → Nat → α
  | 0, temp => temp
  | k + 1, temp => warpStepFull r (2 ^ k) (warpLoopFull r k temp)

/-- The stride loop, guarded form. -/
def warpLoopGuarded {α : Type} (r : Reducer α) (n : Nat) :
    Nat → (Nat → α) → Nat → α
  | 0, temp => temp
  | k + 1, temp => warpStepGuarded r n (2 ^ k) (warpLoopGuarded r n k temp)

/-- The existing threads of the index interval [a, a + len): the ids that are
below the thread count n. -/
def ivl (a len n : Nat) : List Nat :=
  ((List.range len).map (a + ·)).filter (fun x => decide (x < n))

/-- block_reduce (reduce.hpp lines 205-273) as a function from per-thread
inputs to per-thread outputs for a block of n threads.  The branch on
numThreads % WARP_SIZE selects the stride loop form; when
numThreads > WARP_SIZE, lane 0 of every warp publishes its value to the
shared array sd (modelled by reading the phase one value of thread
lane * WARP_SIZE under the same existence guard used by the source, with
Reducer::identity substituted for warps past the block), warp 0 repeats the
stride loop on those values, and threads outside warp 0 keep their phase one
value. -/
def block_reduce {α : Type} (r : Reducer α) (n : Nat) (vals : Nat → α) :
    Nat → α :=
  let afterWarp : Nat → α :=
    if n % WARP_SIZE = 0 then warpLoopFull r 5 vals
    else warpLoopGuarded r n 5 vals
  if WARP_SIZE < n then
    fun t =>
      if t < WARP_SIZE then
        warpLoopFull r 5
          (fun lane =>
            if lane * WARP_SIZE < n then afterWarp (lane * WARP_SIZE)
            else r.identity) t
      else afterWarp t
  else afterWarp

/-- The sum reducer over Int.
Modelled from the spec: RAJA::reduce::sum combines with addition and has
identity 0 (spec section 3); its definition lives in pattern/reduce.hpp,
outside these sources. -/
def sumInt : Reducer Int := ⟨fun a b => a + b, 0⟩

/-! ## grid_reduce, tree variant (reduce.hpp, impl::grid_reduce)

Each block runs block_reduce, thread 0 of each block writes the block
aggregate to device_mem[blockId], issues a threadfence and performs
atomicInc(device_count, numBlocks - 1); the arrival order of the blocks at
the counter is the only cross-block nondeterminism, modelled by the
function order from arrival position to block id.  The fence guarantees the
last arrival reads every earlier write of device_mem. -/

/-- The block aggregate: what block_reduce leaves in thread 0 of block b. -/
def blockAgg {α : Type} (r : Reducer α) (nT : Nat) (vals : Nat → Nat → α)
    (b : Nat) : α :=
  block_reduce r nT (vals b) 0

/-- CUDA atomicInc(ptr, wrap): returns the old value, stores old + 1 or
wraps the stored value to 0 when old ≥ wrap. -/
def atomicInc (c wrap : Nat) : Nat × Nat :=
  (c, if wrap ≤ c then 0 else c + 1)

/-- Protocol state of the tree variant: the scratch array device_mem, the
counter device_count, and each block lastBlock flag. -/
structure TreeSt (α : Type) where
  mem : Nat → α
  count : Nat
  last : Nat → Bool

/-- Thread 0 of the block arriving p-th executes lines 393-401: write the
block aggregate into device_mem[blockId], fence, atomicInc with wrap
numBlocks - 1, and record lastBlock = (old count = wrap). -/
def treeStep {α : Type} (r : Reducer α) (nB nT : Nat)
    (vals : Nat → Nat → α) (order : Nat → Nat) (s : TreeSt α) (p : Nat) :
    TreeSt α :=
  let b := order p
  { mem := Function.update s.mem b (blockAgg r nT vals b)
    count := (atomicInc s.count (nB - 1)).2
    last := Function.update s.last b
      (decide ((atomicInc s.count (nB - 1)).1 = nB - 1)) }

/-- The protocol after the first m arrivals, from the zero-initialized
counter and an arbitrary (uninitialized) scratch array mem0. -/
def treeRunUpTo {α : Type} (r : Reducer α) (nB nT : Nat)
    (vals : Nat → Nat → α) (order : Nat → Nat) (mem0 : Nat → α) (m : Nat) :
    TreeSt α :=
  (List.range m).foldl (treeStep r nB nT vals order)
    ⟨mem0, 0, fun _ => false⟩

/-- The protocol after all nB blocks have arrived. -/
def treeRun {α : Type} (r : Reducer α) (nB nT : Nat)
    (vals : Nat → Nat → α) (order : Nat → Nat) (mem0 : Nat → α) :
    TreeSt α :=
  treeRunUpTo r nB nT vals order mem0 nB

/-- The strided accumulation loop of the last block (lines 408-412):
temp = identity; for (int i = threadId; i < numBlocks; i += numThreads).
The conjunct 0 < nT only makes the recursion well founded; the source runs
with at least one thread per block. -/
def strideLoop {α : Type} (r : Reducer α) (mem : Nat → α) (nB nT i : Nat)
    (acc : α) : α :=
  if h : 0 < nT ∧ i < nB then
    strideLoop r mem nB nT (i + nT) (r.combine acc (mem i))
  else acc
termination_by nB - i
decreasing_by omega

/-- The value the last block computes into thread 0 (lines 407-419): each
thread folds its stride of device_mem starting from the identity, then the
block runs block_reduce again. -/
def lastBlockVal {α : Type} (r : Reducer α) (nB nT : Nat) (mem : Nat → α) :
    α :=
  block_reduce r nT (fun t => strideLoop r mem nB nT t r.identity) 0

/-- grid_reduce (lines 363-424): the value val holds in the thread for
which grid_reduce returns true.  A single block grid takes the first branch
and never touches device_mem or device_count; otherwise the last arriving
block folds the completed scratch array. -/
def grid_reduce_val {α : Type} (r : Reducer α) (nB nT : Nat)
    (vals : Nat → Nat → α) (order : Nat → Nat) (mem0 : Nat → α) : α :=
  if nB = 1 then blockAgg r nT vals 0
  else lastBlockVal r nB nT (treeRun r nB nT vals order mem0).mem

/-- The return value of grid_reduce in block b, thread t (line 423):
lastBlock (broadcast to the whole block by syncthreads_or) and threadId
equals 0. -/
def grid_reduce_ret (last : Nat → Bool) (b t : Nat) : Bool :=
  last b && decide (t = 0)

/-! ## grid_reduce_atomic (reduce.hpp, impl::setup_grid_reduce_atomic,
lines 427-451, and impl::grid_reduce_atomic, lines 455-504)

For a grid of more than one block, thread 0 of each block executes in
program order: the setup section (when the identity is not bitwise zero: a
CAS of device_count from 0 to 1; the winner stores identity to device_mem,
fences and atomicAdds the counter to 2), then in grid_reduce_atomic the
spin until device_count ≥ 2 (skipped when the identity is bitwise zero),
the atomic combine of the block aggregate into the single element
device_mem, a fence, and atomicInc(device_count, numBlocks + 1) with the
lastBlock test.  The machine below gives each block thread 0 a program
counter and lets an arbitrary schedule interleave these serialized
steps. -/

/-- Program points of a block thread 0 in the atomic variant. -/
inductive APc where
  | casTry
  | writeId
  | bump
  | wait
  | fold
  | inc
  | done
deriving DecidableEq

/-- Shared and per-block state of the atomic variant protocol: the counter
device_count, the single element scratch device_mem (initially the zeroed
pool value), whether the identity store has happened, whether some block
combined into the scratch before the identity store (the situation the
claim rules out), and each block program counter, CAS outcome and
lastBlock flag. -/
structure AState (α : Type) where
  count : Nat
  mem : α
  initDone : Bool
  foldedUninit : Bool
  pc : Nat → APc
  won : Nat → Bool
  lastFlag : Nat → Bool

/-- One serialized step of thread 0 of block b.  idZero is
bitwize_zero(Reducer::identity); temp b is the block aggregate of block b
(its block_reduce result). -/
def stepBlock {α : Type} (r : Reducer α) (idZero : Bool) (nB : Nat)
    (temp : Nat → α) (s : AState α) (b : Nat) : AState α :=
  match s.pc b with
  | APc.casTry =>
      if idZero then { s with pc := Function.update s.pc b APc.wait }
      else if s.count = 0 then
        { s with
          count := 1
          won := Function.update s.won b true
          pc := Function.update s.pc b APc.writeId }
      else { s with pc := Function.update s.pc b APc.wait }
  | APc.writeId =>
      { s with
        mem := r.identity
        initDone := true
        pc := Function.update s.pc b APc.bump }
  | APc.bump =>
      { s with
        count := s.count + 1
        pc := Function.update s.pc b APc.wait }
  | APc.wait =>
      if idZero then { s with pc := Function.update s.pc b APc.fold }
      else if 2 ≤ s.count then
        { s with pc := Function.update s.pc b APc.fold }
      else s
  | APc.fold =>
      { s with
        mem := r.combine s.mem (temp b)
        foldedUninit := s.foldedUninit || !s.initDone
        pc := Function.update s.pc b APc.inc }
  | APc.inc =>
      { s with
        count := (atomicInc s.count (nB + 1)).2
        lastFlag := Function.update s.lastFlag b
          (decide ((atomicInc s.count (nB + 1)).1 = nB + 1))
        pc := Function.update s.pc b APc.done }
  | APc.done => s

/-- Initial state: zeroed counter, zeroed pool scratch, nothing run. -/
def initAState {α : Type} (zeroVal : α) : AState α :=
  ⟨0, zeroVal, false, false, fun _ => APc.casTry, fun _ => false,
    fun _ => false⟩

/-- Run the protocol under a schedule (the sequence of block ids whose
thread 0 performs its next serialized step). -/
def atomicRun {α : Type} (r : Reducer α) (idZero : Bool) (nB : Nat)
    (temp : Nat → α) (zeroVal : α) (sched : List Nat) : AState α :=
  sched.foldl (stepBlock r idZero nB temp) (initAState zeroVal)

/-- Count of blocks of the grid that have finished. -/
def dcount {α : Type} (nB : Nat) (s : AState α) : Nat :=
  (List.range nB).countP (fun b => decide (s.pc b = APc.done))

/-- No block has run yet. -/
def PhaseStart {α : Type} (s : AState α) : Prop :=
  s.count = 0 ∧ s.initDone = false ∧ s.foldedUninit = false
    ∧ (∀ b, s.pc b = APc.casTry) ∧ (∀ b, s.won b = false)

/-- One block has won the CAS and is between the CAS and its counter bump;
the counter reads 1 so nobody can pass the spin. -/
def PhaseWin {α : Type} (nB : Nat) (s : AState α) : Prop :=
  ∃ w, w < nB ∧ s.won w = true ∧ (∀ b, s.won b = true → b = w)
    ∧ s.count = 1 ∧ s.foldedUninit = false
    ∧ ((s.pc w = APc.writeId ∧ s.initDone = false)
        ∨ (s.pc w = APc.bump ∧ s.initDone = true))
    ∧ (∀ b, b ≠ w → s.pc b = APc.casTry ∨ s.pc b = APc.wait)

/-- The identity store is published, the counter is 2 plus the number of
finished blocks, and the winner path is no longer occupied. -/
def PhaseRun {α : Type} (nB : Nat) (s : AState α) : Prop :=
  ∃ w, w < nB ∧ s.won w = true ∧ (∀ b, s.won b = true → b = w)
    ∧ s.initDone = true ∧ s.foldedUninit = false
    ∧ s.count = 2 + dcount nB s ∧ dcount nB s ≤ nB - 1
    ∧ (∀ b, s.pc b ≠ APc.writeId ∧ s.pc b ≠ APc.bump)

/-- All blocks are finished and the final atomicInc wrapped the counter. -/
def PhaseEnd {α : Type} (nB : Nat) (s : AState α) : Prop :=
  ∃ w, w < nB ∧ s.won w = true ∧ (∀ b, s.won b = true → b = w)
    ∧ s.initDone = true ∧ s.foldedUninit = false ∧ s.count = 0
    ∧ (∀ b, b < nB → s.pc b = APc.done)

/-- Inductive invariant of the atomic variant protocol for reducers whose
identity is not bitwise zero. -/
def AInv {α : Type} (nB : Nat) (s : AState α) : Prop :=
  PhaseStart s ∨ PhaseWin nB s ∨ PhaseRun nB s ∨ PhaseEnd nB s

/-- A min like reducer with the nonzero identity 1000, as the atomic
variant uses for min reductions. -/
def minInt : Reducer Int := ⟨fun a b => min a b, 1000⟩

/-- A complete two block run of the atomic variant protocol under the min
reducer: block 0 wins the CAS, stores the identity, bumps the counter, then
both blocks combine and increment. -/
def c5run : AState Int :=
  atomicRun minInt false 2 (fun b => (b : Int)) 0
    [0, 0, 0, 0, 0, 0, 1, 1, 1, 1]

/-! ## PinnedTally (reduce.hpp lines 589-780)

The tally is the stream_list: a list of stream nodes, each carrying a
stream handle (modelled as Nat) and its list of pinned slots (head = most
recently prepended).  StreamNodeIterator walks the node lists stream by
stream; operator== compares only the node pointer, so the walk ends at a
null node pointer: at the true end, or early at a stream node whose node
list is empty. -/

structure StreamNode (α : Type) where
  stream : Nat
  nodes : List α

/-- The tail of the iterator walk: current node list, then the remaining
stream nodes (lines 657-669). -/
def visitGo {α : Type} : List α → List (StreamNode α) → List α
  | [], _ => []
  | [x], [] => [x]
  | [x], sn :: rest => x :: visitGo sn.nodes rest
  | x :: y :: xs, rest => x :: visitGo (y :: xs) rest
termination_by l rest => (rest.length, l.length)

/-- The values visited from begin() (lines 719-722) to end(). -/
def visit {α : Type} : List (StreamNode α) → List α
  | [] => []
  | sn :: rest => visitGo sn.nodes rest

/-- Prepend a fresh slot to the first stream node matching s. -/
def updFirst {α : Type} : List (StreamNode α) → Nat → α → List (StreamNode α)
  | [], _, _ => []
  | sn :: rest, s, v =>
      if sn.stream = s then ⟨sn.stream, v :: sn.nodes⟩ :: rest
      else sn :: updFirst rest s v

/-- PinnedTally::new_value (lines 731-752), list effect: search the stream
list for the node of stream s; when absent, allocate a stream node with an
empty node list and prepend it to the stream list; then prepend a freshly
allocated pinned slot holding v to that node of the stream list. -/
def new_value {α : Type} (l : List (StreamNode α)) (s : Nat) (v : α) :
    List (StreamNode α) :=
  if l.any (fun sn => sn.stream == s) then updFirst l s v
  else ⟨s, [v]⟩ :: l

/-- The tally invariant: pairwise distinct streams and no empty node
list. -/
def TallyWf {α : Type} (l : List (StreamNode α)) : Prop :=
  (l.map (fun sn => sn.stream)).Pairwise (fun a b => a ≠ b)
    ∧ ∀ sn ∈ l, sn.nodes ≠ []

/-! ## The host read of a handle (cuda::Reduce::operator T, lines
1242-1256, with deviceToHost lines 908-914 and cleanup / free_list lines
755-767 and 919-922) -/

/-- Host side state of a root handle: the accumulated value val.value and
the pinned tally. -/
structure HostHandle (α : Type) where
  value : α
  tally : List (StreamNode α)

/-- Result of one host read: the returned aggregate, the handle state
after the read, and the streams synchronized during the read. -/
structure ReadResult (α : Type) where
  result : α
  state : HostHandle α
  synced : List Nat

/-- cuda::Reduce::operator T: n = begin(); if n is not end() (the iterator
comparison looks only at the node pointer, so the range is nonempty exactly
when the stream list is nonempty and its first node list is nonempty),
synchronize every stream of the tally, fold every visited slot value into
val.value, and free the whole tally; otherwise return the cached value
untouched.  get() is an alias of this conversion. -/
def readHost {α : Type} (r : Reducer α) (h : HostHandle α) : ReadResult α :=
  match h.tally with
  | [] => ⟨h.value, h, []⟩
  | sn :: rest =>
      if sn.nodes.isEmpty then ⟨h.value, h, []⟩
      else
        ⟨(visit (sn :: rest)).foldl r.combine h.value,
          ⟨(visit (sn :: rest)).foldl r.combine h.value, []⟩,
          (sn :: rest).map (fun t => t.stream)⟩

/-- The public constructor (lines 1185-1190): val.value = init_val and a
freshly allocated PinnedTally with a null stream_list. -/
def hostInit {α : Type} (seed : α) : HostHandle α := ⟨seed, []⟩

/-! ## bitwize_zero (reduce.hpp, impl::bitwize_zero, lines 184-202)

A trivially bit copyable value is modelled by the list of its bytes.  The
union view reads ceil(sizeof(T)/4) ints; the constexpr constructor zeroes
the array first, so the padding bytes of the last int are zero.  Each int
is ored into an accumulator and the result compared against 0. -/

/-- Little endian value of one int built from four bytes. -/
def word4 (b0 b1 b2 b3 : Nat) : Nat :=
  b0 + 256 * b1 + 65536 * b2 + 16777216 * b3

/-- The int array view of a byte representation, with zero padding. -/
def wordsOf : List Nat → List Nat
  | [] => []
  | [b0] => [word4 b0 0 0 0]
  | [b0, b1] => [word4 b0 b1 0 0]
  | [b0, b1, b2] => [word4 b0 b1 b2 0]
  | b0 :: b1 :: b2 :: b3 :: rest => word4 b0 b1 b2 b3 :: wordsOf rest

/-- impl::bitwize_zero: or the int words together, compare with 0. -/
def bitwize_zero (bytes : List Nat) : Bool :=
  decide ((wordsOf bytes).foldl (fun z w => z ||| w) 0 = 0)

/-! ## The handle copy and its host destructor (cuda::Reduce_Data copy
constructor, lines 836-844, and cuda::Reduce copy constructor and
destructor, lines 1193-1239) -/

/-- The fields of Reduce_Data a host side copy owns. -/
structure ReduceData (α : Type) where
  value : α
  own_device_ptr : Bool

/-- The Reduce_Data copy constructor: value := Reducer::identity,
own_device_ptr := false (tally, device pointers shared with the source). -/
def reduceDataCopy {α : Type} (r : Reducer α) (other : ReduceData α) :
    ReduceData α :=
  ⟨r.identity, false⟩

/-- A host side handle copy: whether its parent pointer is still non null,
and its Reduce_Data. -/
structure HostCopy (α : Type) where
  parentNonNull : Bool
  val : ReduceData α

/-- The host branch of the Reduce copy constructor: copy the parent
pointer and the data; when the parent is non null and setupForDevice
succeeds, null the parent and take ownership of the device pointers. -/
def reduceCopyHost {α : Type} (r : Reducer α) (otherParentNonNull : Bool)
    (other : ReduceData α) (setupOk : Bool) : HostCopy α :=
  if otherParentNonNull && setupOk then
    ⟨false, { reduceDataCopy r other with own_device_ptr := true }⟩
  else ⟨otherParentNonNull, reduceDataCopy r other⟩

/-- The host branch of the Reduce destructor for a copy (parent ≠ this):
with a non null parent, fold the value of the copy into the parent
(parent->reduce(val.value)); with a null parent, tear down the device
resources and fold nothing.  Returns the accumulated value of the parent. -/
def destroyHostCopy {α : Type} (r : Reducer α) (c : HostCopy α)
    (parentValue : α) : α :=
  if c.parentNonNull then r.combine parentValue c.val.value else parentValue

section ReducerLemmas

variable {α : Type} {r : Reducer α}

theorem combine_id_right (hr : ReducerLaws r) (a : α) :
    r.combine a r.identity = a := by
  rw [hr.1, hr.2.2]

theorem foldl_eq_combine_rfold (hr : ReducerLaws r) :
    ∀ (l : List α) (a : α), l.foldl r.combine a = r.combine a (rfold r l) := by
  intro l
  induction l with
  | nil => intro a; simp [rfold, combine_id_right hr]
  | cons x xs ih =>
      intro a
      have h1 : rfold r (x :: xs) = r.combine x (rfold r xs) := by
        simp only [rfold, List.foldl_cons]
        rw [ih (r.combine r.identity x), hr.2.2]
        rfl
      simp only [List.foldl_cons]
      rw [ih (r.combine a x), h1, hr.2.1]

theorem rfold_cons (hr : ReducerLaws r) (x : α) (xs : List α) :
    rfold r (x :: xs) = r.combine x (rfold r xs) := by
  simp only [rfold, List.foldl_cons]
  rw [foldl_eq_combine_rfold hr, hr.2.2]
  rfl

theorem rfold_append (hr : ReducerLaws r) (l1 l2 : List α) :
    rfold r (l1 ++ l2) = r.combine (rfold r l1) (rfold r l2) := by
  simp only [rfold, List.foldl_append]
  rw [foldl_eq_combine_rfold hr l2 (List.foldl r.combine r.identity l1)]
  rfl

theorem rfold_singleton (hr : ReducerLaws r) (x : α) :
    rfold r [x] = x := by
  simp [rfold, hr.2.2]

theorem rfold_of_all_id (hr : ReducerLaws r) :
    ∀ (l : List α), (∀ x ∈ l, x = r.identity) → rfold r l = r.identity := by
  intro l
  induction l with
  | nil => intro _; rfl
  | cons x xs ih =>
      intro h
      rw [rfold_cons hr, h x (by simp), ih (fun y hy => h y (by simp [hy]))]
      exact hr.2.2 r.identity

theorem rfold_flatten (hr : ReducerLaws r) :
    ∀ (ls : List (List α)), rfold r (ls.map (rfold r)) = rfold r ls.flatten := by
  intro ls
  induction ls with
  | nil => rfl
  | cons l ls ih =>
      simp only [List.map_cons, List.flatten_cons]
      rw [rfold_cons hr, ih, rfold_append hr]

end ReducerLemmas

/-- Key arithmetic fact behind the xor butterfly: when the low k+1 bits of t
are clear, the shuffle partner threadId xor 2^k is just t + 2^k. -/
theorem xor_two_pow_eq_add {t k : Nat} (h : t % 2 ^ (k + 1) = 0) :
    t ^^^ 2 ^ k = t + 2 ^ k := by
  obtain ⟨q, hq⟩ : 2 ^ (k + 1) ∣ t := Nat.dvd_of_mod_eq_zero h
  subst hq
  apply Nat.eq_of_testBit_eq
  intro j
  have hb : (2 : Nat) ^ k < 2 ^ (k + 1) := by
    have := Nat.pow_lt_pow_succ (a := 2) (n := k) (by omega)
    exact this
  rw [Nat.testBit_xor, Nat.testBit_mul_pow_two_add _ hb, Nat.testBit_mul_pow_two,
    Nat.testBit_two_pow]
  rcases Nat.lt_trichotomy j k with hj | hj | hj
  · have h1 : ¬ (j ≥ k + 1) := by omega
    have h2 : j < k + 1 := by omega
    have h3 : k ≠ j := by omega
    simp [h1, h2, Nat.testBit_two_pow, h3]
  · subst hj
    have h1 : ¬ (j ≥ j + 1) := by omega
    have h2 : j < j + 1 := by omega
    simp [h1, h2, Nat.testBit_two_pow]
  · have h1 : j ≥ k + 1 := by omega
    have h2 : ¬ (j < k + 1) := by omega
    have h3 : k ≠ j := by omega
    simp [h1, h2, h3]

theorem ivl_append (a l1 l2 n : Nat) :
    ivl a (l1 + l2) n = ivl a l1 n ++ ivl (a + l1) l2 n := by
  have hmap : ((List.range l2).map (fun x => l1 + x)).map (fun x => a + x)
      = (List.range l2).map (fun x => a + l1 + x) := by
    rw [List.map_map]
    apply List.map_congr_left
    intro j _
    simp only [Function.comp_apply]
    omega
  simp only [ivl, List.range_add, List.map_append, List.filter_append]
  rw [hmap]

theorem ivl_nil_of_ge {a len n : Nat} (h : n ≤ a) : ivl a len n = [] := by
  simp only [ivl, List.filter_eq_nil_iff]
  intro x hx
  simp only [List.mem_map, List.mem_range] at hx
  obtain ⟨j, _, rfl⟩ := hx
  simp
  omega

theorem ivl_all_of_le {a len n : Nat} (h : a + len ≤ n) :
    ivl a len n = (List.range len).map (a + ·) := by
  apply List.filter_eq_self.mpr
  intro x hx
  simp only [List.mem_map, List.mem_range] at hx
  obtain ⟨j, hj, rfl⟩ := hx
  simp
  omega

theorem ivl_singleton {t n : Nat} (h : t < n) : ivl t 1 n = [t] := by
  simp [ivl, List.range_succ, h]

/-- Invariant of the guarded butterfly: after the strides 1 .. 2^(k-1), a
thread t whose low k bits are clear holds the fold of the existing threads
of its aligned chunk [t, t + 2^k). -/
theorem warpLoopGuarded_fold {α : Type} {r : Reducer α} (hr : ReducerLaws r)
    (n : Nat) (vals : Nat → α) :
    ∀ (k t : Nat), t < n → t % 2 ^ k = 0 →
      warpLoopGuarded r n k vals t = rfold r ((ivl t (2 ^ k) n).map vals) := by
  intro k
  induction k with
  | zero =>
      intro t ht _
      simp [warpLoopGuarded, ivl_singleton ht, rfold_singleton hr]
  | succ k ih =>
      intro t ht hmod
      have hdk : t % 2 ^ k = 0 := by
        have h1 : 2 ^ k ∣ t :=
          (Nat.pow_dvd_pow 2 (Nat.le_succ k)).trans (Nat.dvd_of_mod_eq_zero hmod)
        exact Nat.mod_eq_zero_of_dvd h1
      have hxor : t ^^^ 2 ^ k = t + 2 ^ k := xor_two_pow_eq_add hmod
      have hsplit : (2 : Nat) ^ (k + 1) = 2 ^ k + 2 ^ k := by
        rw [Nat.pow_succ, Nat.mul_two]
      have hmod2 : (t + 2 ^ k) % 2 ^ k = 0 := by
        simp [Nat.add_mod, hdk, Nat.mod_self]
      simp only [warpLoopGuarded, warpStepGuarded, hxor]
      by_cases hlt : t + 2 ^ k < n
      · rw [if_pos hlt, ih t ht hdk, ih (t + 2 ^ k) hlt hmod2,
          hsplit, ivl_append, List.map_append, rfold_append hr]
      · rw [if_neg hlt, ih t ht hdk, hsplit, ivl_append,
          @ivl_nil_of_ge (t + 2 ^ k) (2 ^ k) n (by omega), List.append_nil]

/-- Invariant of the unguarded butterfly: after the strides 1 .. 2^(k-1), a
thread t whose low k bits are clear holds the fold of its whole aligned
chunk [t, t + 2^k). -/
theorem warpLoopFull_fold {α : Type} {r : Reducer α} (hr : ReducerLaws r)
    (temp : Nat → α) :
    ∀ (k t : Nat), t % 2 ^ k = 0 →
      warpLoopFull r k temp t =
        rfold r (((List.range (2 ^ k)).map (t + ·)).map temp) := by
  intro k
  induction k with
  | zero =>
      intro t _
      have h0 : ((List.range (2 ^ 0)).map (t + ·)).map temp = [temp t] := by
        have h1 : (2 : Nat) ^ 0 = 1 := by norm_num
        rw [h1]
        rfl
      simp only [warpLoopFull]
      rw [h0, rfold_singleton hr]
  | succ k ih =>
      intro t hmod
      have hdk : t % 2 ^ k = 0 := by
        have h1 : 2 ^ k ∣ t :=
          (Nat.pow_dvd_pow 2 (Nat.le_succ k)).trans (Nat.dvd_of_mod_eq_zero hmod)
        exact Nat.mod_eq_zero_of_dvd h1
      have hxor : t ^^^ 2 ^ k = t + 2 ^ k := xor_two_pow_eq_add hmod
      have hmod2 : (t + 2 ^ k) % 2 ^ k = 0 := by
        simp [Nat.add_mod, hdk, Nat.mod_self]
      have hsplit : (2 : Nat) ^ (k + 1) = 2 ^ k + 2 ^ k := by
        rw [Nat.pow_succ, Nat.mul_two]
      have hmap : ((List.range (2 ^ k)).map (fun x => 2 ^ k + x)).map
            (fun x => t + x)
          = (List.range (2 ^ k)).map (fun x => t + 2 ^ k + x) := by
        rw [List.map_map]
        apply List.map_congr_left
        intro j _
        simp only [Function.comp_apply]
        omega
      simp only [warpLoopFull, warpStepFull, hxor]
      rw [ih t hdk, ih (t + 2 ^ k) hmod2, hsplit, List.range_add,
        List.map_append, List.map_append, hmap, rfold_append hr]

theorem filter_range_lt {m n : Nat} (h : n ≤ m) :
    (List.range m).filter (fun x => decide (x < n)) = List.range n := by
  induction m with
  | zero =>
      have hn : n = 0 := by omega
      simp [hn]
  | succ m ih =>
      rcases Nat.lt_or_ge m n with hc | hc
      · have hn : n = m + 1 := by omega
        subst hn
        apply List.filter_eq_self.mpr
        intro x hx
        simp only [List.mem_range] at hx
        simp [hx]
      · rw [List.range_succ, List.filter_append, ih hc]
        have hm : ¬ (m < n) := by omega
        simp [hm]

/-- The phase one (intra-warp) value held by the leader thread w * WARP_SIZE
of warp w: the fold of the existing threads of warp w. -/
theorem warp_phase_leader {α : Type} {r : Reducer α} (hr : ReducerLaws r)
    (n : Nat) (vals : Nat → α) (w : Nat) (hw : w * 32 < n) :
    (if n % WARP_SIZE = 0 then warpLoopFull r 5 vals
      else warpLoopGuarded r n 5 vals) (w * 32)
      = rfold r ((ivl (w * 32) 32 n).map vals) := by
  have hmod : (w * 32) % 2 ^ 5 = 0 := by
    rw [show (2 : Nat) ^ 5 = 32 by norm_num]
    exact Nat.mul_mod_left w 32
  by_cases hm : n % WARP_SIZE = 0
  · rw [if_pos hm]
    have hm32 : n % 32 = 0 := hm
    have hle : w * 32 + 32 ≤ n := by omega
    rw [warpLoopFull_fold hr vals 5 (w * 32) hmod]
    rw [show (2 : Nat) ^ 5 = 32 by norm_num] at *
    rw [ivl_all_of_le hle]
  · rw [if_neg hm]
    rw [warpLoopGuarded_fold hr n vals 5 (w * 32) hw hmod]
    rw [show (2 : Nat) ^ 5 = 32 by norm_num]

/-- Correctness of block_reduce at thread 0: the fold of every thread
input value, each contributing exactly once. -/
theorem block_reduce_thread0 {α : Type} {r : Reducer α} (hr : ReducerLaws r)
    (n : Nat) (vals : Nat → α) (hn : 0 < n)
    (hmax : n ≤ WARP_SIZE * MAX_WARPS) :
    block_reduce r n vals 0 = rfold r ((List.range n).map vals) := by
  have hmax1024 : n ≤ 1024 := hmax
  have hzmap : ∀ (m : Nat), (List.range m).map (0 + ·) = List.range m := by
    intro m
    have h1 : (List.range m).map (0 + ·) = (List.range m).map id := by
      apply List.map_congr_left
      intro x _
      simp
    rw [h1, List.map_id]
  by_cases hb : WARP_SIZE < n
  · -- more than one warp
    have hb32 : 32 < n := hb
    simp only [block_reduce, if_pos hb]
    rw [if_pos (show (0 : Nat) < WARP_SIZE by decide)]
    set W := (n + 31) / 32 with hW
    have hWle : W ≤ 32 := by omega
    set warp0 : Nat → α := fun lane =>
      if lane * WARP_SIZE < n then
        (if n % WARP_SIZE = 0 then warpLoopFull r 5 vals
          else warpLoopGuarded r n 5 vals) (lane * WARP_SIZE)
      else r.identity with hwarp0
    rw [warpLoopFull_fold hr warp0 5 0 (by norm_num)]
    rw [show (2 : Nat) ^ 5 = 32 by norm_num, hzmap 32]
    have hsplitr : List.range 32
        = List.range W ++ (List.range (32 - W)).map (W + ·) := by
      conv_lhs => rw [show (32 : Nat) = W + (32 - W) by omega]
      rw [List.range_add]
    rw [hsplitr, List.map_append, rfold_append hr]
    have hid2 : rfold r (((List.range (32 - W)).map (W + ·)).map warp0)
        = r.identity := by
      apply rfold_of_all_id hr
      intro x hx
      simp only [List.map_map, List.mem_map, List.mem_range] at hx
      obtain ⟨j, hj, rfl⟩ := hx
      simp only [Function.comp_apply, hwarp0]
      have hge : ¬ ((W + j) * WARP_SIZE < n) := by
        show ¬ ((W + j) * 32 < n)
        omega
      rw [if_neg hge]
    rw [hid2, combine_id_right hr]
    have hmapW : (List.range W).map warp0
        = (List.range W).map
            (fun w => rfold r ((ivl (w * 32) 32 n).map vals)) := by
      apply List.map_congr_left
      intro w hwmem
      simp only [List.mem_range] at hwmem
      have hwlt : w * 32 < n := by omega
      simp only [hwarp0]
      rw [if_pos (show w * WARP_SIZE < n from hwlt)]
      exact warp_phase_leader hr n vals w hwlt
    rw [hmapW]
    have hmm : (List.range W).map
          (fun w => rfold r ((ivl (w * 32) 32 n).map vals))
        = ((List.range W).map (fun w => (ivl (w * 32) 32 n).map vals)).map
            (rfold r) := by
      rw [List.map_map]
      rfl
    rw [hmm, rfold_flatten hr]
    have hflat : ((List.range W).map
          (fun w => (ivl (w * 32) 32 n).map vals)).flatten
        = (((List.range W).map (fun w => ivl (w * 32) 32 n)).flatten).map
            vals := by
      rw [List.map_flatten, List.map_map]
      rfl
    rw [hflat]
    have hchunks : ∀ (V : Nat),
        ((List.range V).map (fun w => ivl (w * 32) 32 n)).flatten
          = ivl 0 (V * 32) n := by
      intro V
      induction V with
      | zero => simp [ivl]
      | succ V ih =>
          rw [List.range_succ, List.map_append, List.flatten_append, ih]
          simp only [List.map_cons, List.map_nil, List.flatten_cons,
            List.flatten_nil, List.append_nil]
          rw [show (V + 1) * 32 = V * 32 + 32 by ring, ivl_append,
            Nat.zero_add]
    rw [hchunks W]
    have hivl : ivl 0 (W * 32) n = List.range n := by
      rw [ivl, hzmap (W * 32), filter_range_lt (by omega)]
    rw [hivl]
  · -- a single warp
    have hb32 : n ≤ 32 := by
      have : ¬ (32 < n) := hb
      omega
    simp only [block_reduce, if_neg hb]
    by_cases hm : n % WARP_SIZE = 0
    · have hm32 : n % 32 = 0 := hm
      have hn32 : n = 32 := by omega
      subst hn32
      rw [if_pos hm]
      rw [warpLoopFull_fold hr vals 5 0 (by norm_num)]
      rw [show (2 : Nat) ^ 5 = 32 by norm_num, hzmap 32]
    · rw [if_neg hm]
      rw [warpLoopGuarded_fold hr n vals 5 0 hn (by norm_num)]
      rw [show (2 : Nat) ^ 5 = 32 by norm_num]
      rw [ivl, hzmap 32, filter_range_lt hb32]

theorem sumInt_laws : ReducerLaws sumInt := by
  refine ⟨?_, ?_, ?_⟩ <;> intros <;> simp [sumInt] <;> ring

/-- Claim C3: for every block size, both a multiple of the warp size and
not, and every assignment of a value to each thread of the block,
block_reduce leaves in thread 0 the reducer combine of all threads input
values, each thread value contributing exactly once: nonexistent lanes
are excluded by the lane existence guard and missing warps contribute the
identity. -/
theorem claim3_block_reduce {α : Type} {r : Reducer α} (hr : ReducerLaws r)
    (n : Nat) (vals : Nat → α) (hn : 0 < n)
    (hmax : n ≤ WARP_SIZE * MAX_WARPS) :
    block_reduce r n vals 0 = rfold r ((List.range n).map vals) :=
  block_reduce_thread0 hr n vals hn hmax

theorem claim3_block_reduce_witness :
    (ReducerLaws sumInt ∧ 0 < 33 ∧ 33 ≤ WARP_SIZE * MAX_WARPS) ∧
      block_reduce sumInt 33 (fun t => (t : Int)) 0 =
        rfold sumInt ((List.range 33).map (fun t => (t : Int))) :=
  ⟨⟨sumInt_laws, by decide, by decide⟩,
    claim3_block_reduce sumInt_laws 33 (fun t => (t : Int)) (by decide)
      (by decide)⟩

/-- Counter, scratch and flag invariant of the tree protocol after m of the
nB arrivals. -/
theorem treeRunUpTo_inv {α : Type} (r : Reducer α) (nB nT : Nat)
    (vals : Nat → Nat → α) (order : Nat → Nat) (mem0 : Nat → α)
    (hinj : ∀ p q, p < nB → q < nB → order p = order q → p = q) :
    ∀ m, m ≤ nB →
      ((treeRunUpTo r nB nT vals order mem0 m).count
          = if m < nB then m else 0)
      ∧ (∀ b, (∀ p, p < m → order p ≠ b) →
          (treeRunUpTo r nB nT vals order mem0 m).mem b = mem0 b)
      ∧ (∀ p, p < m →
          (treeRunUpTo r nB nT vals order mem0 m).mem (order p)
            = blockAgg r nT vals (order p))
      ∧ (∀ b, ((treeRunUpTo r nB nT vals order mem0 m).last b = true
          ↔ (nB - 1 < m ∧ order (nB - 1) = b))) := by
  intro m
  induction m with
  | zero =>
      intro _
      refine ⟨by simp [treeRunUpTo], fun b _ => rfl, fun p hp => by omega,
        fun b => by simp [treeRunUpTo]⟩
  | succ m ih =>
      intro hm1
      have hm : m ≤ nB := by omega
      have hmlt : m < nB := by omega
      obtain ⟨hc, hmem0, hmemA, hlast⟩ := ih hm
      have hstep : treeRunUpTo r nB nT vals order mem0 (m + 1)
          = treeStep r nB nT vals order
              (treeRunUpTo r nB nT vals order mem0 m) m := by
        simp [treeRunUpTo, List.range_succ]
      have hcount : (treeRunUpTo r nB nT vals order mem0 m).count = m := by
        rw [hc, if_pos hmlt]
      refine ⟨?_, ?_, ?_, ?_⟩
      · rw [hstep]
        simp only [treeStep, atomicInc, hcount]
        by_cases hw : nB - 1 ≤ m
        · rw [if_pos hw, if_neg (by omega)]
        · rw [if_neg hw, if_pos (by omega)]
      · intro b hb
        rw [hstep]
        simp only [treeStep]
        rw [Function.update_apply, if_neg ?hne]
        case hne =>
          intro hbe
          exact hb m (by omega) hbe.symm
        exact hmem0 b (fun p hp => hb p (by omega))
      · intro p hp
        rw [hstep]
        simp only [treeStep]
        rcases Nat.lt_or_ge p m with hpm | hpm
        · rw [Function.update_apply]
          by_cases heq : order p = order m
          · rw [if_pos heq, heq]
          · rw [if_neg heq]
            exact hmemA p hpm
        · have hpe : p = m := by omega
          subst hpe
          rw [Function.update_apply, if_pos rfl]
      · intro b
        rw [hstep]
        simp only [treeStep, atomicInc, hcount]
        rw [Function.update_apply]
        by_cases hbm : b = order m
        · rw [if_pos hbm]
          simp only [decide_eq_true_eq]
          constructor
          · intro hmw
            exact ⟨by omega, by rw [hbm, ← hmw]⟩
          · rintro ⟨hw1, hw2⟩
            have : nB - 1 = m := by
              apply hinj (nB - 1) m (by omega) hmlt
              rw [hw2, hbm]
            omega
        · rw [if_neg hbm]
          rw [hlast b]
          constructor
          · rintro ⟨hw1, hw2⟩
            exact ⟨by omega, hw2⟩
          · rintro ⟨hw1, hw2⟩
            refine ⟨?_, hw2⟩
            rcases Nat.lt_or_ge (nB - 1) m with hx | hx
            · exact hx
            · have : nB - 1 = m := by omega
              rw [this] at hw2
              exact absurd (hw2.symm) hbm

/-- Claim C4: in the tree variant with more than one block, after every
block thread 0 has written its aggregate to device_scratch at its block
id and incremented device_count with wrap value numBlocks - 1, the scratch
holds every block aggregate, exactly one block (the final arrival) observed
the wrap-around pre-increment value and is last, only that block thread 0
makes grid_reduce return true; and in a single-block grid thread 0 receives
the block aggregate directly, independently of the scratch and counter,
which are never accessed. -/
theorem claim4_grid_reduce_tree {α : Type} (r : Reducer α) (nB nT : Nat)
    (vals : Nat → Nat → α) (order : Nat → Nat) (mem0 : Nat → α)
    (h2 : 2 ≤ nB)
    (hinj : ∀ p q, p < nB → q < nB → order p = order q → p = q)
    (hsurj : ∀ b, b < nB → ∃ p, p < nB ∧ order p = b) :
    (∀ b, b < nB →
      (treeRun r nB nT vals order mem0).mem b = blockAgg r nT vals b)
    ∧ (∀ b, ((treeRun r nB nT vals order mem0).last b = true
        ↔ b = order (nB - 1)))
    ∧ (∀ b t, (grid_reduce_ret (treeRun r nB nT vals order mem0).last b t
        = true ↔ (b = order (nB - 1) ∧ t = 0)))
    ∧ (∀ (vals1 : Nat → Nat → α) (order1 : Nat → Nat) (mem1 : Nat → α),
        grid_reduce_val r 1 nT vals1 order1 mem1 = blockAgg r nT vals1 0) := by
  obtain ⟨hc, hmem0, hmemA, hlast⟩ :=
    treeRunUpTo_inv r nB nT vals order mem0 hinj nB (Nat.le_refl nB)
  have hmem : ∀ b, b < nB →
      (treeRun r nB nT vals order mem0).mem b = blockAgg r nT vals b := by
    intro b hb
    obtain ⟨p, hp, rfl⟩ := hsurj b hb
    exact hmemA p hp
  have hlast1 : ∀ b, ((treeRun r nB nT vals order mem0).last b = true
      ↔ b = order (nB - 1)) := by
    intro b
    rw [show treeRun r nB nT vals order mem0
        = treeRunUpTo r nB nT vals order mem0 nB from rfl, hlast b]
    constructor
    · rintro ⟨_, hb⟩
      exact hb.symm
    · intro hb
      exact ⟨by omega, hb.symm⟩
  refine ⟨hmem, hlast1, ?_, ?_⟩
  · intro b t
    simp only [grid_reduce_ret, Bool.and_eq_true, decide_eq_true_eq]
    rw [hlast1 b]
  · intro vals1 order1 mem1
    simp [grid_reduce_val]

theorem claim4_grid_reduce_tree_witness :
    (2 ≤ 2
      ∧ (∀ p q : Nat, p < 2 → q < 2 → (1 - p) = (1 - q) → p = q)
      ∧ (∀ b : Nat, b < 2 → ∃ p, p < 2 ∧ (1 - p) = b)) ∧
    ((∀ b, b < 2 →
      (treeRun sumInt 2 1 (fun b t => (b : Int) + 10) (fun p => 1 - p)
          (fun _ => (7 : Int))).mem b
        = blockAgg sumInt 1 (fun b t => (b : Int) + 10) b)
    ∧ (∀ b, ((treeRun sumInt 2 1 (fun b t => (b : Int) + 10) (fun p => 1 - p)
          (fun _ => (7 : Int))).last b = true ↔ b = (1 - (2 - 1))))
    ∧ (∀ b t, (grid_reduce_ret
          (treeRun sumInt 2 1 (fun b t => (b : Int) + 10) (fun p => 1 - p)
            (fun _ => (7 : Int))).last b t = true
        ↔ (b = (1 - (2 - 1)) ∧ t = 0)))
    ∧ (∀ (vals1 : Nat → Nat → Int) (order1 : Nat → Nat) (mem1 : Nat → Int),
        grid_reduce_val sumInt 1 1 vals1 order1 mem1
          = blockAgg sumInt 1 vals1 0)) :=
  ⟨⟨by decide, by
      intro p q h1 h2 h3
      omega, by
      intro b hb
      refine ⟨1 - b, by omega, ?_⟩
      show 1 - (1 - b) = b
      omega⟩,
    claim4_grid_reduce_tree sumInt 2 1 (fun b t => (b : Int) + 10)
      (fun p => 1 - p) (fun _ => (7 : Int)) (by decide)
      (by
        intro p q h1 h2 h3
        have h4 : 1 - p = 1 - q := h3
        omega)
      (fun b hb => ⟨1 - b, by omega, by
        show 1 - (1 - b) = b
        omega⟩)⟩

theorem sumInt_combine (a b : Int) : sumInt.combine a b = a + b := rfl

theorem sumInt_id : sumInt.identity = 0 := rfl

theorem rfold_sumInt_range (f : Nat → Int) :
    ∀ n, rfold sumInt ((List.range n).map f) = ∑ t ∈ Finset.range n, f t := by
  intro n
  induction n with
  | zero => simp [rfold, sumInt]
  | succ n ih =>
      rw [List.range_succ, List.map_append, rfold_append sumInt_laws, ih,
        show (List.map f [n]) = [f n] from rfl,
        rfold_singleton sumInt_laws, Finset.sum_range_succ]
      rfl

/-- The strided loop of the last block under the Int sum reducer adds the
values mem i, mem (i + nT), ... below nB onto the accumulator. -/
theorem strideLoop_sumInt (mem : Nat → Int) (nB nT : Nat) (hT : 0 < nT) :
    ∀ (k i : Nat) (acc : Int), nB - i ≤ k →
      strideLoop sumInt mem nB nT i acc
        = acc + ∑ j ∈ Finset.range ((nB - i + nT - 1) / nT),
            mem (i + j * nT) := by
  have hstop : ∀ (i : Nat) (acc : Int), nB ≤ i →
      strideLoop sumInt mem nB nT i acc
        = acc + ∑ j ∈ Finset.range ((nB - i + nT - 1) / nT),
            mem (i + j * nT) := by
    intro i acc hge
    rw [strideLoop, dif_neg (by omega)]
    have h0 : nB - i = 0 := by omega
    rw [h0, Nat.div_eq_of_lt (by omega)]
    simp
  intro k
  induction k with
  | zero =>
      intro i acc hk
      exact hstop i acc (by omega)
  | succ k ihk =>
      intro i acc hk
      by_cases hi : i < nB
      · rw [strideLoop, dif_pos ⟨hT, hi⟩, ihk (i + nT) _ (by omega)]
        have hcnt : (nB - i + nT - 1) / nT
            = (nB - (i + nT) + nT - 1) / nT + 1 := by
          rcases Nat.lt_or_ge (i + nT) nB with hc | hc
          · have h1 : nB - i + nT - 1 = (nB - (i + nT) + nT - 1) + nT := by
              omega
            rw [h1, Nat.add_div_right _ hT]
          · have h1 : nB - (i + nT) = 0 := by omega
            rw [h1, Nat.div_eq_of_lt (show 0 + nT - 1 < nT by omega)]
            have h3 : nB - i + nT - 1 = (nB - i - 1) + nT := by omega
            rw [h3, Nat.add_div_right _ hT,
              Nat.div_eq_of_lt (show nB - i - 1 < nT by omega)]
        rw [hcnt, Finset.sum_range_succ']
        have h5 : ∀ j : Nat, mem (i + (j + 1) * nT) = mem (i + nT + j * nT) := by
          intro j
          congr 1
          ring
        simp only [h5, Nat.zero_mul, Nat.add_zero, sumInt_combine]
        ring
      · exact hstop i acc (by omega)

/-- Reindexing: summing each stride class t, t + nT, t + 2 nT, ... over all
start offsets t < nT visits each index below nB exactly once. -/
theorem stride_double_sum (mem : Nat → Int) (nB nT : Nat) (hT : 0 < nT) :
    ∑ t ∈ Finset.range nT, ∑ j ∈ Finset.range ((nB - t + nT - 1) / nT),
        mem (t + j * nT)
      = ∑ i ∈ Finset.range nB, mem i := by
  rw [Finset.sum_sigma']
  refine Finset.sum_bij' (fun x _ => x.1 + x.2 * nT)
    (fun i _ => ⟨i % nT, i / nT⟩) ?_ ?_ ?_ ?_ ?_
  · intro x hx
    simp only [Finset.mem_sigma, Finset.mem_range] at hx
    obtain ⟨h1, h2⟩ := hx
    have h3 : x.2 * nT + nT ≤ ((nB - x.1 + nT - 1) / nT) * nT := by
      calc x.2 * nT + nT = (x.2 + 1) * nT := by ring
        _ ≤ ((nB - x.1 + nT - 1) / nT) * nT := Nat.mul_le_mul_right nT h2
    have h4 : ((nB - x.1 + nT - 1) / nT) * nT ≤ nB - x.1 + nT - 1 :=
      Nat.div_mul_le_self _ _
    simp only [Finset.mem_range]
    omega
  · intro i hi
    simp only [Finset.mem_range] at hi
    simp only [Finset.mem_sigma, Finset.mem_range]
    refine ⟨Nat.mod_lt i hT, ?_⟩
    have h1 : i % nT + (i / nT) * nT = i := by
      have h0 := Nat.mod_add_div i nT
      rw [Nat.mul_comm nT (i / nT)] at h0
      exact h0
    have h2 : (i / nT + 1) * nT ≤ nB - i % nT + nT - 1 := by
      have h3 : (i / nT + 1) * nT = (i / nT) * nT + nT := by ring
      omega
    exact (Nat.le_div_iff_mul_le hT).mpr h2
  · intro x hx
    simp only [Finset.mem_sigma, Finset.mem_range] at hx
    obtain ⟨h1, _⟩ := hx
    have hm : (x.1 + x.2 * nT) % nT = x.1 := by
      rw [Nat.add_mul_mod_self_right, Nat.mod_eq_of_lt h1]
    have hd : (x.1 + x.2 * nT) / nT = x.2 := by
      rw [Nat.add_mul_div_right _ _ hT, Nat.div_eq_of_lt h1, Nat.zero_add]
    cases x with
    | mk a b =>
        show (⟨(a + b * nT) % nT, (a + b * nT) / nT⟩ : (_ : ℕ) × ℕ) = ⟨a, b⟩
        rw [hm, hd]
  · intro i _
    show i % nT + (i / nT) * nT = i
    have h0 := Nat.mod_add_div i nT
    rw [Nat.mul_comm nT (i / nT)] at h0
    exact h0
  · intro x _
    rfl

/-- After all arrivals, every slot of device_mem holds its block aggregate. -/
theorem treeRun_mem {α : Type} (r : Reducer α) (nB nT : Nat)
    (vals : Nat → Nat → α) (order : Nat → Nat) (mem0 : Nat → α)
    (hinj : ∀ p q, p < nB → q < nB → order p = order q → p = q)
    (hsurj : ∀ b, b < nB → ∃ p, p < nB ∧ order p = b)
    (b : Nat) (hb : b < nB) :
    (treeRun r nB nT vals order mem0).mem b = blockAgg r nT vals b := by
  obtain ⟨p, hp, rfl⟩ := hsurj b hb
  exact (treeRunUpTo_inv r nB nT vals order mem0 hinj nB
    (Nat.le_refl nB)).2.2.1 p hp

/-- Claim C1: tree variant grid reduction with the Int sum reducer.  For
every multiset of per-thread contributions, every geometry and every
arrival order, the value the protocol delivers to the pinned slot is the
naive serial sum of all contributions, and the host read that folds the
slot with the seed yields the seed plus that sum. -/
theorem claim1_tree_sum (nB nT : Nat) (vals : Nat → Nat → Int)
    (order : Nat → Nat) (mem0 : Nat → Int) (seed : Int)
    (hB : 0 < nB) (hT : 0 < nT) (hTmax : nT ≤ WARP_SIZE * MAX_WARPS)
    (hinj : ∀ p q, p < nB → q < nB → order p = order q → p = q)
    (hsurj : ∀ b, b < nB → ∃ p, p < nB ∧ order p = b) :
    grid_reduce_val sumInt nB nT vals order mem0
      = (∑ b ∈ Finset.range nB, ∑ t ∈ Finset.range nT, vals b t)
    ∧ sumInt.combine seed (grid_reduce_val sumInt nB nT vals order mem0)
      = seed + ∑ b ∈ Finset.range nB, ∑ t ∈ Finset.range nT, vals b t := by
  have hagg : ∀ b, blockAgg sumInt nT vals b
      = ∑ t ∈ Finset.range nT, vals b t := by
    intro b
    rw [blockAgg, block_reduce_thread0 sumInt_laws nT (vals b) hT hTmax,
      rfold_sumInt_range]
  have hmain : grid_reduce_val sumInt nB nT vals order mem0
      = ∑ b ∈ Finset.range nB, ∑ t ∈ Finset.range nT, vals b t := by
    by_cases h1 : nB = 1
    · subst h1
      rw [grid_reduce_val, if_pos rfl, hagg 0, Finset.sum_range_one]
    · rw [grid_reduce_val, if_neg h1, lastBlockVal,
        block_reduce_thread0 sumInt_laws nT _ hT hTmax, rfold_sumInt_range]
      have hsl : ∀ t : Nat,
          strideLoop sumInt (treeRun sumInt nB nT vals order mem0).mem
              nB nT t sumInt.identity
            = ∑ j ∈ Finset.range ((nB - t + nT - 1) / nT),
                (treeRun sumInt nB nT vals order mem0).mem (t + j * nT) := by
        intro t
        rw [strideLoop_sumInt _ nB nT hT (nB - t) t _ (Nat.le_refl _),
          sumInt_id, zero_add]
      have hsum0 : ∑ t ∈ Finset.range nT,
            strideLoop sumInt (treeRun sumInt nB nT vals order mem0).mem
              nB nT t sumInt.identity
          = ∑ t ∈ Finset.range nT,
              ∑ j ∈ Finset.range ((nB - t + nT - 1) / nT),
                (treeRun sumInt nB nT vals order mem0).mem (t + j * nT) :=
        Finset.sum_congr rfl (fun t _ => hsl t)
      rw [hsum0, stride_double_sum _ nB nT hT]
      apply Finset.sum_congr rfl
      intro i hi
      rw [treeRun_mem sumInt nB nT vals order mem0 hinj hsurj i
        (Finset.mem_range.mp hi), hagg i]
  exact ⟨hmain, by rw [sumInt_combine, hmain]⟩

theorem claim1_tree_sum_witness :
    (0 < 2 ∧ 0 < 2 ∧ 2 ≤ WARP_SIZE * MAX_WARPS
      ∧ (∀ p q : Nat, p < 2 → q < 2 →
          (fun x : Nat => x) p = (fun x : Nat => x) q → p = q)
      ∧ (∀ b : Nat, b < 2 → ∃ p, p < 2 ∧ (fun x : Nat => x) p = b)) ∧
    (grid_reduce_val sumInt 2 2 (fun b t => (b : Int) * 5 + t)
        (fun x : Nat => x) (fun _ => (99 : Int))
      = (∑ b ∈ Finset.range 2, ∑ t ∈ Finset.range 2, ((b : Int) * 5 + t))
    ∧ sumInt.combine 3 (grid_reduce_val sumInt 2 2
        (fun b t => (b : Int) * 5 + t) (fun x : Nat => x) (fun _ => (99 : Int)))
      = 3 + ∑ b ∈ Finset.range 2, ∑ t ∈ Finset.range 2, ((b : Int) * 5 + t)) :=
  ⟨⟨by decide, by decide, by decide,
      fun p q _ _ h => h, fun b hb => ⟨b, hb, rfl⟩⟩,
    claim1_tree_sum 2 2 (fun b t => (b : Int) * 5 + t) (fun x : Nat => x)
      (fun _ => (99 : Int)) 3 (by decide) (by decide) (by decide)
      (fun p q _ _ h => h) (fun b hb => ⟨b, hb, rfl⟩)⟩

/-- Claim C2, evidence at the failing input: with the Int sum reducer
(identity bitwise zero, so setup_grid_reduce_atomic does nothing) and a
grid of 2 blocks, a complete execution finishes both blocks while no
atomicInc ever returns the wrap value numBlocks + 1 = 3: the pre-increment
counter values are 0 and 1, no block is selected as last, the counter is
left at 2 instead of wrapping to 0, and the pinned slot is never
written. -/
theorem claim2_atomic_no_last_block :
    ((atomicRun sumInt true 2 (fun b => (b : Int) + 1) 0
        [0, 0, 0, 0, 1, 1, 1, 1]).pc 0 = APc.done
      ∧ (atomicRun sumInt true 2 (fun b => (b : Int) + 1) 0
        [0, 0, 0, 0, 1, 1, 1, 1]).pc 1 = APc.done)
    ∧ (atomicRun sumInt true 2 (fun b => (b : Int) + 1) 0
        [0, 0, 0, 0, 1, 1, 1, 1]).lastFlag 0 = false
    ∧ (atomicRun sumInt true 2 (fun b => (b : Int) + 1) 0
        [0, 0, 0, 0, 1, 1, 1, 1]).lastFlag 1 = false
    ∧ (atomicRun sumInt true 2 (fun b => (b : Int) + 1) 0
        [0, 0, 0, 0, 1, 1, 1, 1]).count = 2 := by
  decide

theorem countP_update_of_ne {n b : Nat} (f : Nat → APc) (v : APc)
    (p : APc → Bool) (h : p v = p (f b)) :
    (List.range n).countP (fun x => p (Function.update f b v x))
      = (List.range n).countP (fun x => p (f x)) := by
  apply List.countP_congr
  intro a _
  have hba : p (Function.update f b v a) = p (f a) := by
    rw [Function.update_apply]
    by_cases hab : a = b
    · rw [if_pos hab, hab, h]
    · rw [if_neg hab]
  rw [hba]

theorem countP_update_incr {n b : Nat} (hb : b < n) (f : Nat → APc) (v : APc)
    (p : APc → Bool) (hold : p (f b) = false) (hnew : p v = true) :
    (List.range n).countP (fun x => p (Function.update f b v x))
      = (List.range n).countP (fun x => p (f x)) + 1 := by
  induction n with
  | zero => omega
  | succ n ih =>
      rw [List.range_succ, List.countP_append, List.countP_append]
      by_cases hbn : b = n
      · subst hbn
        have h1 : (List.range b).countP
              (fun x => p (Function.update f b v x))
            = (List.range b).countP (fun x => p (f x)) := by
          apply List.countP_congr
          intro a ha
          simp only [List.mem_range] at ha
          have hba : p (Function.update f b v a) = p (f a) := by
            rw [Function.update_apply, if_neg (by omega)]
          rw [hba]
        have h2 : List.countP (fun x => p (Function.update f b v x)) [b]
            = 1 := by
          rw [List.countP_cons, List.countP_nil, Function.update_apply,
            if_pos rfl, hnew]
          rfl
        have h3 : List.countP (fun x => p (f x)) [b] = 0 := by
          rw [List.countP_cons, List.countP_nil, hold]
          rfl
        rw [h1, h2, h3]
      · have hblt : b < n := by omega
        rw [ih hblt]
        have h2 : List.countP (fun x => p (Function.update f b v x)) [n]
            = List.countP (fun x => p (f x)) [n] := by
          have hba : p (Function.update f b v n) = p (f n) := by
            rw [Function.update_apply, if_neg (fun h => hbn h.symm)]
          rw [List.countP_cons, List.countP_cons, hba]
          simp [List.countP_nil]
        rw [h2]
        omega

theorem stepBlock_inv {α : Type} (r : Reducer α) (nB : Nat) (temp : Nat → α)
    (hnB : 2 ≤ nB) (s : AState α) (b : Nat) (hb : b < nB)
    (hinv : AInv nB s) : AInv nB (stepBlock r false nB temp s b) := by
  rcases hinv with hP | hP | hP | hP
  · -- PhaseStart: b runs the CAS and wins.
    obtain ⟨hc, hin, hfo, hpcs, hwon⟩ := hP
    have hstep : stepBlock r false nB temp s b
        = { s with
            count := 1
            won := Function.update s.won b true
            pc := Function.update s.pc b APc.writeId } := by
      simp [stepBlock, hpcs b, hc]
    rw [hstep]
    refine Or.inr (Or.inl ⟨b, hb, ?_, ?_, rfl, hfo, ?_, ?_⟩)
    · show Function.update s.won b true b = true
      rw [Function.update_apply, if_pos rfl]
    · intro b2 hw2
      by_cases h2 : b2 = b
      · exact h2
      · exfalso
        have : Function.update s.won b true b2 = s.won b2 := by
          rw [Function.update_apply, if_neg h2]
        rw [show ({ s with
            count := 1
            won := Function.update s.won b true
            pc := Function.update s.pc b APc.writeId } : AState α).won b2
            = Function.update s.won b true b2 from rfl, this, hwon b2] at hw2
        exact Bool.false_ne_true hw2
    · left
      constructor
      · show Function.update s.pc b APc.writeId b = APc.writeId
        rw [Function.update_apply, if_pos rfl]
      · exact hin
    · intro b2 hne
      left
      show Function.update s.pc b APc.writeId b2 = APc.casTry
      rw [Function.update_apply, if_neg hne]
      exact hpcs b2
  · -- PhaseWin
    obtain ⟨w, hwlt, hwonw, huniq, hc1, hfo, hwpc, hothers⟩ := hP
    by_cases hbw : b = w
    · subst hbw
      rcases hwpc with ⟨hpcw, hin⟩ | ⟨hpcw, hin⟩
      · -- winner stores the identity
        have hstep : stepBlock r false nB temp s b
            = { s with
                mem := r.identity
                initDone := true
                pc := Function.update s.pc b APc.bump } := by
          simp [stepBlock, hpcw]
        rw [hstep]
        refine Or.inr (Or.inl ⟨b, hwlt, hwonw, huniq, hc1, hfo, ?_, ?_⟩)
        · right
          refine ⟨?_, rfl⟩
          show Function.update s.pc b APc.bump b = APc.bump
          rw [Function.update_apply, if_pos rfl]
        · intro b2 hne
          show Function.update s.pc b APc.bump b2 = APc.casTry
            ∨ Function.update s.pc b APc.bump b2 = APc.wait
          rw [Function.update_apply, if_neg hne]
          exact hothers b2 hne
      · -- winner bumps the counter to 2
        have hstep : stepBlock r false nB temp s b
            = { s with
                count := s.count + 1
                pc := Function.update s.pc b APc.wait } := by
          simp [stepBlock, hpcw]
        rw [hstep]
        have hdz : dcount nB ({ s with
            count := s.count + 1
            pc := Function.update s.pc b APc.wait } : AState α) = 0 := by
          apply List.countP_eq_zero.mpr
          intro b2 hb2
          simp only [decide_eq_true_eq]
          show ¬ Function.update s.pc b APc.wait b2 = APc.done
          rw [Function.update_apply]
          by_cases h2 : b2 = b
          · rw [if_pos h2]
            intro hcon
            exact absurd hcon (by simp)
          · rw [if_neg h2]
            rcases hothers b2 (fun h => h2 h) with h3 | h3 <;>
              rw [h3] <;> simp
        refine Or.inr (Or.inr (Or.inl ⟨b, hwlt, hwonw, huniq, hin, hfo,
          ?_, ?_, ?_⟩))
        · show s.count + 1 = 2 + dcount nB ({ s with
            count := s.count + 1
            pc := Function.update s.pc b APc.wait } : AState α)
          rw [hdz, hc1]
        · rw [hdz]
          omega
        · intro b2
          constructor
          · show ¬ Function.update s.pc b APc.wait b2 = APc.writeId
            rw [Function.update_apply]
            by_cases h2 : b2 = b
            · rw [if_pos h2]
              simp
            · rw [if_neg h2]
              rcases hothers b2 (fun h => h2 h) with h3 | h3 <;>
                rw [h3] <;> simp
          · show ¬ Function.update s.pc b APc.wait b2 = APc.bump
            rw [Function.update_apply]
            by_cases h2 : b2 = b
            · rw [if_pos h2]
              simp
            · rw [if_neg h2]
              rcases hothers b2 (fun h => h2 h) with h3 | h3 <;>
                rw [h3] <;> simp
    · -- a block other than the winner steps
      rcases hothers b hbw with hpcb | hpcb
      · -- CAS fails since the counter reads 1
        have hstep : stepBlock r false nB temp s b
            = { s with pc := Function.update s.pc b APc.wait } := by
          simp [stepBlock, hpcb, hc1]
        rw [hstep]
        refine Or.inr (Or.inl ⟨w, hwlt, hwonw, huniq, hc1, hfo, ?_, ?_⟩)
        · rcases hwpc with ⟨hpcw, hin⟩ | ⟨hpcw, hin⟩
          · left
            refine ⟨?_, hin⟩
            show Function.update s.pc b APc.wait w = APc.writeId
            rw [Function.update_apply, if_neg (fun h => hbw h.symm), hpcw]
          · right
            refine ⟨?_, hin⟩
            show Function.update s.pc b APc.wait w = APc.bump
            rw [Function.update_apply, if_neg (fun h => hbw h.symm), hpcw]
        · intro b2 hne
          show Function.update s.pc b APc.wait b2 = APc.casTry
            ∨ Function.update s.pc b APc.wait b2 = APc.wait
          rw [Function.update_apply]
          by_cases h2 : b2 = b
          · rw [if_pos h2]
            right
            rfl
          · rw [if_neg h2]
            exact hothers b2 hne
      · -- the spin loop does not terminate while the counter reads 1
        have hstep : stepBlock r false nB temp s b = s := by
          simp [stepBlock, hpcb, hc1]
        rw [hstep]
        exact Or.inr (Or.inl ⟨w, hwlt, hwonw, huniq, hc1, hfo, hwpc,
          hothers⟩)
  · -- PhaseRun
    obtain ⟨w, hwlt, hwonw, huniq, hin, hfo, hcnt, hdle, hnowb⟩ := hP
    have hkeepF : ∀ (v : APc), v ≠ APc.done → s.pc b ≠ APc.done →
        (List.range nB).countP
            (fun x => decide (Function.update s.pc b v x = APc.done))
          = (List.range nB).countP (fun x => decide (s.pc x = APc.done)) := by
      intro v hv hbnd
      apply countP_update_of_ne s.pc v (fun q => decide (q = APc.done))
      simp [hv, hbnd]
    have hincrF : s.pc b ≠ APc.done →
        (List.range nB).countP
            (fun x => decide (Function.update s.pc b APc.done x = APc.done))
          = (List.range nB).countP (fun x => decide (s.pc x = APc.done))
            + 1 := by
      intro hbnd
      apply countP_update_incr hb s.pc APc.done
        (fun q => decide (q = APc.done))
      · simp [hbnd]
      · simp
    cases hpc2 : s.pc b with
    | casTry =>
        have hc0 : ¬ (s.count = 0) := by omega
        have hstep : stepBlock r false nB temp s b
            = { s with pc := Function.update s.pc b APc.wait } := by
          simp [stepBlock, hpc2, hc0]
        rw [hstep]
        have hdq : dcount nB
              ({ s with pc := Function.update s.pc b APc.wait } : AState α)
            = dcount nB s := by
          show (List.range nB).countP
              (fun x => decide (Function.update s.pc b APc.wait x = APc.done))
            = dcount nB s
          rw [hkeepF APc.wait (by simp) (by rw [hpc2]; simp)]
          rfl
        refine Or.inr (Or.inr (Or.inl ⟨w, hwlt, hwonw, huniq, hin, hfo,
          ?_, ?_, ?_⟩))
        · show s.count = 2 + dcount nB
            ({ s with pc := Function.update s.pc b APc.wait } : AState α)
          rw [hdq, hcnt]
        · rw [hdq]
          exact hdle
        · intro b2
          constructor
          · show ¬ Function.update s.pc b APc.wait b2 = APc.writeId
            rw [Function.update_apply]
            by_cases h2 : b2 = b
            · rw [if_pos h2]
              simp
            · rw [if_neg h2]
              exact (hnowb b2).1
          · show ¬ Function.update s.pc b APc.wait b2 = APc.bump
            rw [Function.update_apply]
            by_cases h2 : b2 = b
            · rw [if_pos h2]
              simp
            · rw [if_neg h2]
              exact (hnowb b2).2
    | writeId => exact absurd hpc2 (hnowb b).1
    | bump => exact absurd hpc2 (hnowb b).2
    | wait =>
        have hc2 : 2 ≤ s.count := by omega
        have hstep : stepBlock r false nB temp s b
            = { s with pc := Function.update s.pc b APc.fold } := by
          simp [stepBlock, hpc2, hc2]
        rw [hstep]
        have hdq : dcount nB
              ({ s with pc := Function.update s.pc b APc.fold } : AState α)
            = dcount nB s := by
          show (List.range nB).countP
              (fun x => decide (Function.update s.pc b APc.fold x = APc.done))
            = dcount nB s
          rw [hkeepF APc.fold (by simp) (by rw [hpc2]; simp)]
          rfl
        refine Or.inr (Or.inr (Or.inl ⟨w, hwlt, hwonw, huniq, hin, hfo,
          ?_, ?_, ?_⟩))
        · show s.count = 2 + dcount nB
            ({ s with pc := Function.update s.pc b APc.fold } : AState α)
          rw [hdq, hcnt]
        · rw [hdq]
          exact hdle
        · intro b2
          constructor
          · show ¬ Function.update s.pc b APc.fold b2 = APc.writeId
            rw [Function.update_apply]
            by_cases h2 : b2 = b
            · rw [if_pos h2]
              simp
            · rw [if_neg h2]
              exact (hnowb b2).1
          · show ¬ Function.update s.pc b APc.fold b2 = APc.bump
            rw [Function.update_apply]
            by_cases h2 : b2 = b
            · rw [if_pos h2]
              simp
            · rw [if_neg h2]
              exact (hnowb b2).2
    | fold =>
        have hstep : stepBlock r false nB temp s b
            = { s with
                mem := r.combine s.mem (temp b)
                foldedUninit := s.foldedUninit || !s.initDone
                pc := Function.update s.pc b APc.inc } := by
          simp [stepBlock, hpc2]
        rw [hstep]
        have hdq : dcount nB
              ({ s with
                mem := r.combine s.mem (temp b)
                foldedUninit := s.foldedUninit || !s.initDone
                pc := Function.update s.pc b APc.inc } : AState α)
            = dcount nB s := by
          show (List.range nB).countP
              (fun x => decide (Function.update s.pc b APc.inc x = APc.done))
            = dcount nB s
          rw [hkeepF APc.inc (by simp) (by rw [hpc2]; simp)]
          rfl
        refine Or.inr (Or.inr (Or.inl ⟨w, hwlt, hwonw, huniq, hin,
          ?_, ?_, ?_, ?_⟩))
        · show (s.foldedUninit || !s.initDone) = false
          rw [hfo, hin]
          rfl
        · show s.count = 2 + dcount nB
            ({ s with
              mem := r.combine s.mem (temp b)
              foldedUninit := s.foldedUninit || !s.initDone
              pc := Function.update s.pc b APc.inc } : AState α)
          rw [hdq, hcnt]
        · rw [hdq]
          exact hdle
        · intro b2
          constructor
          · show ¬ Function.update s.pc b APc.inc b2 = APc.writeId
            rw [Function.update_apply]
            by_cases h2 : b2 = b
            · rw [if_pos h2]
              simp
            · rw [if_neg h2]
              exact (hnowb b2).1
          · show ¬ Function.update s.pc b APc.inc b2 = APc.bump
            rw [Function.update_apply]
            by_cases h2 : b2 = b
            · rw [if_pos h2]
              simp
            · rw [if_neg h2]
              exact (hnowb b2).2
    | inc =>
        have hstep : stepBlock r false nB temp s b
            = { s with
                count := (atomicInc s.count (nB + 1)).2
                lastFlag := Function.update s.lastFlag b
                  (decide ((atomicInc s.count (nB + 1)).1 = nB + 1))
                pc := Function.update s.pc b APc.done } := by
          simp [stepBlock, hpc2]
        rw [hstep]
        have hdq : dcount nB
              ({ s with
                count := (atomicInc s.count (nB + 1)).2
                lastFlag := Function.update s.lastFlag b
                  (decide ((atomicInc s.count (nB + 1)).1 = nB + 1))
                pc := Function.update s.pc b APc.done } : AState α)
            = dcount nB s + 1 := by
          show (List.range nB).countP
              (fun x => decide (Function.update s.pc b APc.done x = APc.done))
            = dcount nB s + 1
          rw [hincrF (by rw [hpc2]; simp)]
          rfl
        rcases Nat.lt_or_ge (dcount nB s) (nB - 1) with hdlt | hdge
        · have hnw : ¬ (nB + 1 ≤ s.count) := by omega
          refine Or.inr (Or.inr (Or.inl ⟨w, hwlt, hwonw, huniq, hin, hfo,
            ?_, ?_, ?_⟩))
          · show (atomicInc s.count (nB + 1)).2 = 2 + dcount nB
              ({ s with
                count := (atomicInc s.count (nB + 1)).2
                lastFlag := Function.update s.lastFlag b
                  (decide ((atomicInc s.count (nB + 1)).1 = nB + 1))
                pc := Function.update s.pc b APc.done } : AState α)
            rw [hdq]
            show (if nB + 1 ≤ s.count then 0 else s.count + 1)
              = 2 + (dcount nB s + 1)
            rw [if_neg hnw, hcnt]
            omega
          · rw [hdq]
            omega
          · intro b2
            constructor
            · show ¬ Function.update s.pc b APc.done b2 = APc.writeId
              rw [Function.update_apply]
              by_cases h2 : b2 = b
              · rw [if_pos h2]
                simp
              · rw [if_neg h2]
                exact (hnowb b2).1
            · show ¬ Function.update s.pc b APc.done b2 = APc.bump
              rw [Function.update_apply]
              by_cases h2 : b2 = b
              · rw [if_pos h2]
                simp
              · rw [if_neg h2]
                exact (hnowb b2).2
        · have hdeq : dcount nB s = nB - 1 := by omega
          have hw2 : nB + 1 ≤ s.count := by omega
          refine Or.inr (Or.inr (Or.inr ⟨w, hwlt, hwonw, huniq, hin, hfo,
            ?_, ?_⟩))
          · show (if nB + 1 ≤ s.count then 0 else s.count + 1) = 0
            rw [if_pos hw2]
          · intro b2 hb2
            have hcp : (List.range nB).countP
                (fun x => decide (Function.update s.pc b APc.done x
                  = APc.done)) = (List.range nB).length := by
              rw [List.length_range, hincrF (by rw [hpc2]; simp)]
              show dcount nB s + 1 = nB
              omega
            have hall := List.countP_eq_length.mp hcp b2
              (List.mem_range.mpr hb2)
            show Function.update s.pc b APc.done b2 = APc.done
            exact of_decide_eq_true hall
    | done =>
        have hstep : stepBlock r false nB temp s b = s := by
          simp [stepBlock, hpc2]
        rw [hstep]
        exact Or.inr (Or.inr (Or.inl ⟨w, hwlt, hwonw, huniq, hin, hfo,
          hcnt, hdle, hnowb⟩))
  · -- PhaseEnd: every block of the grid is done, nothing changes
    obtain ⟨w, hwlt, hwonw, huniq, hin, hfo, hc0, hall⟩ := hP
    have hstep : stepBlock r false nB temp s b = s := by
      simp [stepBlock, hall b hb]
    rw [hstep]
    exact Or.inr (Or.inr (Or.inr ⟨w, hwlt, hwonw, huniq, hin, hfo, hc0,
      hall⟩))

theorem atomicRun_inv {α : Type} (r : Reducer α) (nB : Nat) (temp : Nat → α)
    (zeroVal : α) (hnB : 2 ≤ nB) (sched : List Nat)
    (hsched : ∀ x ∈ sched, x < nB) :
    AInv nB (atomicRun r false nB temp zeroVal sched) := by
  have hmain : ∀ (l : List Nat) (s : AState α), (∀ x ∈ l, x < nB) →
      AInv nB s → AInv nB (l.foldl (stepBlock r false nB temp) s) := by
    intro l
    induction l with
    | nil =>
        intro s _ h
        exact h
    | cons x xs ih =>
        intro s hx h
        exact ih (stepBlock r false nB temp s x)
          (fun y hy => hx y (List.mem_cons_of_mem x hy))
          (stepBlock_inv r nB temp hnB s x (hx x (List.mem_cons_self x xs)) h)
  exact hmain sched (initAState zeroVal) hsched
    (Or.inl ⟨rfl, rfl, rfl, fun _ => rfl, fun _ => rfl⟩)

/-- Claim C5: for the atomic variant with a reducer whose identity is not
bitwise zero and more than one block, in every schedulable execution at
most one block wins the CAS of device_count from 0 to 1 (and only that
block stores the identity and bumps the counter to 2), every block reaching
its atomic combine does so in a state where device_count ≥ 2 only after the
identity store is published, and no block ever folds the uninitialized zero
value of the accumulator into its contribution. -/
theorem claim5_atomic_setup {α : Type} (r : Reducer α) (nB : Nat)
    (temp : Nat → α) (zeroVal : α) (sched : List Nat) (s : AState α)
    (hnB : 2 ≤ nB) (hsched : ∀ x ∈ sched, x < nB)
    (hs : s = atomicRun r false nB temp zeroVal sched) :
    (∀ b1 b2, s.won b1 = true → s.won b2 = true → b1 = b2)
    ∧ s.foldedUninit = false
    ∧ (2 ≤ s.count → s.initDone = true)
    ∧ (∀ b, (s.pc b = APc.fold ∨ s.pc b = APc.inc ∨ s.pc b = APc.done)
        → s.initDone = true) := by
  have hinv : AInv nB s := by
    rw [hs]
    exact atomicRun_inv r nB temp zeroVal hnB sched hsched
  rcases hinv with hP | hP | hP | hP
  · obtain ⟨hc, hin, hfo, hpcs, hwon⟩ := hP
    refine ⟨?_, hfo, ?_, ?_⟩
    · intro b1 b2 h1 _
      rw [hwon b1] at h1
      exact absurd h1 (by simp)
    · intro h2
      rw [hc] at h2
      omega
    · intro b hbpc
      rcases hbpc with h | h | h <;> rw [hpcs b] at h <;>
        exact absurd h (by simp)
  · obtain ⟨w, hwlt, hwonw, huniq, hc1, hfo, hwpc, hothers⟩ := hP
    refine ⟨?_, hfo, ?_, ?_⟩
    · intro b1 b2 h1 h2
      rw [huniq b1 h1, huniq b2 h2]
    · intro h2
      rw [hc1] at h2
      omega
    · intro b hbpc
      exfalso
      by_cases hbw : b = w
      · subst hbw
        rcases hwpc with ⟨hpcw, _⟩ | ⟨hpcw, _⟩ <;> rw [hpcw] at hbpc <;>
          rcases hbpc with h | h | h <;> simp at h
      · rcases hothers b hbw with h3 | h3 <;> rw [h3] at hbpc <;>
          rcases hbpc with h | h | h <;> simp at h
  · obtain ⟨w, _, _, huniq, hin, hfo, _, _, _⟩ := hP
    exact ⟨fun b1 b2 h1 h2 => by rw [huniq b1 h1, huniq b2 h2], hfo,
      fun _ => hin, fun _ _ => hin⟩
  · obtain ⟨w, _, _, huniq, hin, hfo, _, _⟩ := hP
    exact ⟨fun b1 b2 h1 h2 => by rw [huniq b1 h1, huniq b2 h2], hfo,
      fun _ => hin, fun _ _ => hin⟩

theorem claim5_atomic_setup_witness :
    (2 ≤ 2 ∧ (∀ x ∈ ([0, 0, 0, 0, 0, 0, 1, 1, 1, 1] : List Nat), x < 2)
      ∧ c5run = atomicRun minInt false 2 (fun b => (b : Int)) 0
          [0, 0, 0, 0, 0, 0, 1, 1, 1, 1]) ∧
    ((∀ b1 b2, c5run.won b1 = true → c5run.won b2 = true → b1 = b2)
      ∧ c5run.foldedUninit = false
      ∧ (2 ≤ c5run.count → c5run.initDone = true)
      ∧ (∀ b, (c5run.pc b = APc.fold ∨ c5run.pc b = APc.inc
          ∨ c5run.pc b = APc.done) → c5run.initDone = true)) :=
  ⟨⟨by decide, by decide, rfl⟩,
    claim5_atomic_setup minInt 2 (fun b => (b : Int)) 0
      [0, 0, 0, 0, 0, 0, 1, 1, 1, 1] c5run (by decide) (by decide) rfl⟩

theorem visitGo_flat {α : Type} :
    ∀ (rest : List (StreamNode α)) (nodes : List α), nodes ≠ [] →
      (∀ sn ∈ rest, sn.nodes ≠ []) →
      visitGo nodes rest = nodes ++ (rest.map (fun sn => sn.nodes)).flatten := by
  intro rest
  induction rest with
  | nil =>
      intro nodes hne _
      induction nodes with
      | nil => exact absurd rfl hne
      | cons x xs ihx =>
          cases xs with
          | nil => simp [visitGo]
          | cons y ys =>
              simp only [visitGo]
              rw [ihx (by simp)]
              simp
  | cons sn rest ih =>
      intro nodes hne hrest
      induction nodes with
      | nil => exact absurd rfl hne
      | cons x xs ihx =>
          cases xs with
          | nil =>
              simp only [visitGo]
              rw [ih sn.nodes (hrest sn (by simp))
                (fun t ht => hrest t (by simp [ht]))]
              simp
          | cons y ys =>
              simp only [visitGo]
              rw [ihx (by simp)]
              simp

theorem visit_flat {α : Type} (l : List (StreamNode α))
    (h : ∀ sn ∈ l, sn.nodes ≠ []) :
    visit l = (l.map (fun sn => sn.nodes)).flatten := by
  cases l with
  | nil => rfl
  | cons sn rest =>
      rw [show visit (sn :: rest) = visitGo sn.nodes rest from rfl,
        visitGo_flat rest sn.nodes (h sn (by simp))
          (fun t ht => h t (by simp [ht]))]
      simp

theorem updFirst_streams {α : Type} :
    ∀ (l : List (StreamNode α)) (s : Nat) (v : α),
      (updFirst l s v).map (fun sn => sn.stream)
        = l.map (fun sn => sn.stream) := by
  intro l s v
  induction l with
  | nil => rfl
  | cons sn rest ih =>
      rw [updFirst]
      by_cases h : sn.stream = s
      · rw [if_pos h]
        simp
      · rw [if_neg h]
        simp only [List.map_cons, ih]

theorem updFirst_nonempty {α : Type} :
    ∀ (l : List (StreamNode α)) (s : Nat) (v : α),
      (∀ sn ∈ l, sn.nodes ≠ []) →
      ∀ sn ∈ updFirst l s v, sn.nodes ≠ [] := by
  intro l s v
  induction l with
  | nil =>
      intro _ sn hsn
      exact absurd hsn (by simp [updFirst])
  | cons hd rest ih =>
      intro hall sn hsn
      rw [updFirst] at hsn
      by_cases h : hd.stream = s
      · rw [if_pos h] at hsn
        rcases List.mem_cons.mp hsn with h2 | h2
        · rw [h2]
          simp
        · exact hall sn (by simp [h2])
      · rw [if_neg h] at hsn
        rcases List.mem_cons.mp hsn with h2 | h2
        · rw [h2]
          exact hall hd (by simp)
        · exact ih (fun t ht => hall t (by simp [ht])) sn h2

theorem updFirst_flat {α : Type} :
    ∀ (l : List (StreamNode α)) (s : Nat) (v : α),
      l.any (fun sn => sn.stream == s) = true →
      ∃ pre suf, (l.map (fun sn => sn.nodes)).flatten = pre ++ suf
        ∧ ((updFirst l s v).map (fun sn => sn.nodes)).flatten
            = pre ++ v :: suf := by
  intro l s v
  induction l with
  | nil =>
      intro hany
      exact absurd hany (by simp)
  | cons hd rest ih =>
      intro hany
      by_cases h : hd.stream = s
      · refine ⟨[], hd.nodes ++ (rest.map (fun sn => sn.nodes)).flatten,
          by simp, ?_⟩
        rw [updFirst, if_pos h]
        simp
      · have hany2 : rest.any (fun sn => sn.stream == s) = true := by
          rcases List.any_eq_true.mp hany with ⟨t, ht, hts⟩
          rcases List.mem_cons.mp ht with h2 | h2
          · exfalso
            rw [h2] at hts
            exact h (by simpa using hts)
          · exact List.any_eq_true.mpr ⟨t, h2, hts⟩
        obtain ⟨pre, suf, h1, h2⟩ := ih hany2
        refine ⟨hd.nodes ++ pre, suf, ?_, ?_⟩
        · simp [h1]
        · rw [updFirst, if_neg h]
          simp [h2]

/-- Claim C9: new_value keeps the tally invariant (distinct streams,
nonempty node lists); it reuses the node of an already seen stream and
prepends a fresh stream node otherwise, always prepending exactly one
fresh slot; under the invariant the iteration from begin() to end() visits
every allocated slot of every stream exactly once. -/
theorem claim9_pinned_tally {α : Type} (l : List (StreamNode α)) (s : Nat)
    (v : α) (hwf : TallyWf l) :
    TallyWf (new_value l s v)
    ∧ visit l = (l.map (fun sn => sn.nodes)).flatten
    ∧ visit (new_value l s v)
        = ((new_value l s v).map (fun sn => sn.nodes)).flatten
    ∧ (visit (new_value l s v)).Perm (v :: visit l)
    ∧ (l.any (fun sn => sn.stream == s) = false →
        new_value l s v = ⟨s, [v]⟩ :: l)
    ∧ (l.any (fun sn => sn.stream == s) = true →
        (new_value l s v).map (fun sn => sn.stream)
          = l.map (fun sn => sn.stream)) := by
  obtain ⟨hdis, hnon⟩ := hwf
  have hwf2 : TallyWf (new_value l s v) := by
    rw [new_value]
    by_cases hany : l.any (fun sn => sn.stream == s) = true
    · rw [if_pos hany]
      exact ⟨by rw [updFirst_streams]; exact hdis,
        updFirst_nonempty l s v hnon⟩
    · rw [if_neg hany]
      constructor
      · simp only [List.map_cons]
        rw [List.pairwise_cons]
        refine ⟨?_, hdis⟩
        intro a ha
        rcases List.mem_map.mp ha with ⟨t, ht, rfl⟩
        have := List.any_eq_false.mp (Bool.eq_false_iff.mpr hany) t ht
        intro hco
        exact this (by simp [hco.symm])
      · intro sn hsn
        rcases List.mem_cons.mp hsn with h2 | h2
        · rw [h2]
          simp
        · exact hnon sn h2
  have hv1 : visit l = (l.map (fun sn => sn.nodes)).flatten :=
    visit_flat l hnon
  have hv2 : visit (new_value l s v)
      = ((new_value l s v).map (fun sn => sn.nodes)).flatten :=
    visit_flat _ hwf2.2
  refine ⟨hwf2, hv1, hv2, ?_, ?_, ?_⟩
  · rw [hv1, hv2, new_value]
    by_cases hany : l.any (fun sn => sn.stream == s) = true
    · rw [if_pos hany]
      obtain ⟨pre, suf, h1, h2⟩ := updFirst_flat l s v hany
      rw [h1, h2]
      exact List.perm_middle
    · rw [if_neg hany]
      simp
  · intro hany
    rw [new_value, if_neg (by rw [hany]; simp)]
  · intro hany
    rw [new_value, if_pos hany, updFirst_streams]

theorem claim9_pinned_tally_witness :
    TallyWf ([⟨3, [(10 : Int), 20]⟩, ⟨7, [30]⟩] : List (StreamNode Int)) ∧
    (TallyWf (new_value [⟨3, [(10 : Int), 20]⟩, ⟨7, [30]⟩] 7 40)
    ∧ visit ([⟨3, [(10 : Int), 20]⟩, ⟨7, [30]⟩] : List (StreamNode Int))
        = (([⟨3, [(10 : Int), 20]⟩, ⟨7, [30]⟩] : List (StreamNode Int)).map
            (fun sn => sn.nodes)).flatten
    ∧ visit (new_value [⟨3, [(10 : Int), 20]⟩, ⟨7, [30]⟩] 7 40)
        = ((new_value [⟨3, [(10 : Int), 20]⟩, ⟨7, [30]⟩] 7 40).map
            (fun sn => sn.nodes)).flatten
    ∧ (visit (new_value [⟨3, [(10 : Int), 20]⟩, ⟨7, [30]⟩] 7 40)).Perm
        (40 :: visit ([⟨3, [(10 : Int), 20]⟩, ⟨7, [30]⟩]
          : List (StreamNode Int)))
    ∧ (([⟨3, [(10 : Int), 20]⟩, ⟨7, [30]⟩]
          : List (StreamNode Int)).any (fun sn => sn.stream == 7) = false →
        new_value [⟨3, [(10 : Int), 20]⟩, ⟨7, [30]⟩] 7 40
          = ⟨7, [40]⟩ :: [⟨3, [(10 : Int), 20]⟩, ⟨7, [30]⟩])
    ∧ (([⟨3, [(10 : Int), 20]⟩, ⟨7, [30]⟩]
          : List (StreamNode Int)).any (fun sn => sn.stream == 7) = true →
        (new_value [⟨3, [(10 : Int), 20]⟩, ⟨7, [30]⟩] 7 40).map
            (fun sn => sn.stream)
          = ([⟨3, [(10 : Int), 20]⟩, ⟨7, [30]⟩]
              : List (StreamNode Int)).map (fun sn => sn.stream))) :=
  ⟨⟨by simp, by
      intro sn hsn
      rcases List.mem_cons.mp hsn with h2 | h2
      · rw [h2]
        simp
      · rcases List.mem_cons.mp h2 with h3 | h3
        · rw [h3]
          simp
        · exact absurd h3 (by simp)⟩,
    claim9_pinned_tally [⟨3, [(10 : Int), 20]⟩, ⟨7, [30]⟩] 7 40
      ⟨by simp, by
        intro sn hsn
        rcases List.mem_cons.mp hsn with h2 | h2
        · rw [h2]
          simp
        · rcases List.mem_cons.mp h2 with h3 | h3
          · rw [h3]
            simp
          · exact absurd h3 (by simp)⟩⟩

/-- Claim C6: the host read is idempotent.  The first read synchronizes
exactly the streams of the tally, folds every slot into the handle value and
empties the tally; the second read returns the same value, synchronizes
nothing and folds nothing further. -/
theorem claim6_read_idempotent {α : Type} (r : Reducer α) (h : HostHandle α)
    (hwf : ∀ sn ∈ h.tally, sn.nodes ≠ []) :
    (readHost r h).synced = h.tally.map (fun sn => sn.stream)
    ∧ (readHost r h).result
        = ((h.tally.map (fun sn => sn.nodes)).flatten).foldl r.combine
            h.value
    ∧ (readHost r h).state.tally = []
    ∧ readHost r (readHost r h).state
        = ⟨(readHost r h).result, (readHost r h).state, []⟩ := by
  cases htl : h.tally with
  | nil =>
      have hre : readHost r h = ⟨h.value, h, []⟩ := by
        rw [readHost]
        split
        · rfl
        · rename_i sn2 rest2 heq
          rw [htl] at heq
          exact absurd heq (by simp)
      rw [hre]
      exact ⟨rfl, by simp, htl, by rw [hre]⟩
  | cons sn rest =>
      have hsn : sn.nodes ≠ [] := hwf sn (by rw [htl]; simp)
      have hie : sn.nodes.isEmpty = false := by
        cases hn : sn.nodes with
        | nil => exact absurd hn hsn
        | cons a l => rfl
      have hre : readHost r h
          = ⟨(visit (sn :: rest)).foldl r.combine h.value,
            ⟨(visit (sn :: rest)).foldl r.combine h.value, []⟩,
            (sn :: rest).map (fun t => t.stream)⟩ := by
        rw [readHost]
        split
        · rename_i heq
          rw [htl] at heq
          exact absurd heq (by simp)
        · rename_i sn2 rest2 heq
          rw [htl] at heq
          injection heq with h1 h2
          subst h1
          subst h2
          rw [if_neg (by rw [hie]; simp)]
      rw [hre]
      have hvf : visit (sn :: rest)
          = ((sn :: rest).map (fun t => t.nodes)).flatten := by
        apply visit_flat
        intro t ht
        exact hwf t (by rw [htl]; exact ht)
      refine ⟨rfl, ?_, rfl, rfl⟩
      show (visit (sn :: rest)).foldl r.combine h.value = _
      rw [hvf]

theorem claim6_read_idempotent_witness :
    (∀ sn ∈ ([⟨3, [(10 : Int), 20]⟩, ⟨7, [30]⟩] : List (StreamNode Int)),
        sn.nodes ≠ []) ∧
    ((readHost sumInt ⟨5, [⟨3, [(10 : Int), 20]⟩, ⟨7, [30]⟩]⟩).synced
        = ([⟨3, [(10 : Int), 20]⟩, ⟨7, [30]⟩] : List (StreamNode Int)).map
            (fun sn => sn.stream)
    ∧ (readHost sumInt ⟨5, [⟨3, [(10 : Int), 20]⟩, ⟨7, [30]⟩]⟩).result
        = ((([⟨3, [(10 : Int), 20]⟩, ⟨7, [30]⟩]
            : List (StreamNode Int)).map (fun sn => sn.nodes)).flatten).foldl
              sumInt.combine 5
    ∧ (readHost sumInt
        ⟨5, [⟨3, [(10 : Int), 20]⟩, ⟨7, [30]⟩]⟩).state.tally = []
    ∧ readHost sumInt
          (readHost sumInt ⟨5, [⟨3, [(10 : Int), 20]⟩, ⟨7, [30]⟩]⟩).state
        = ⟨(readHost sumInt ⟨5, [⟨3, [(10 : Int), 20]⟩, ⟨7, [30]⟩]⟩).result,
            (readHost sumInt
              ⟨5, [⟨3, [(10 : Int), 20]⟩, ⟨7, [30]⟩]⟩).state, []⟩) :=
  ⟨by decide, claim6_read_idempotent sumInt
    ⟨5, [⟨3, [(10 : Int), 20]⟩, ⟨7, [30]⟩]⟩ (by decide)⟩

/-- Claim C7: reading a handle that was constructed with a seed and never
used in a kernel launch (so its tally is the freshly allocated empty one)
returns the seed unchanged, synchronizes no stream and folds nothing. -/
theorem claim7_unused_read {α : Type} (r : Reducer α) (seed : α) :
    readHost r (hostInit seed) = ⟨seed, hostInit seed, []⟩ := rfl

theorem lor_eq_zero {a b : Nat} (h : a ||| b = 0) : a = 0 ∧ b = 0 := by
  constructor <;> apply Nat.eq_of_testBit_eq <;> intro i <;>
    · have h1 : (a ||| b).testBit i = (0 : Nat).testBit i := by rw [h]
      rw [Nat.testBit_or] at h1
      simp only [Nat.zero_testBit, Bool.or_eq_false_iff] at h1
      simp only [Nat.zero_testBit]
      first
        | exact h1.1
        | exact h1.2

theorem lor_foldl_eq_zero :
    ∀ (l : List Nat) (a : Nat),
      (l.foldl (fun z w => z ||| w) a = 0 ↔ (a = 0 ∧ ∀ w ∈ l, w = 0)) := by
  intro l
  induction l with
  | nil =>
      intro a
      simp
  | cons x xs ih =>
      intro a
      rw [List.foldl_cons, ih]
      constructor
      · rintro ⟨h1, h2⟩
        obtain ⟨ha, hx⟩ := lor_eq_zero h1
        refine ⟨ha, ?_⟩
        intro w hw
        rcases List.mem_cons.mp hw with h3 | h3
        · rw [h3, hx]
        · exact h2 w h3
      · rintro ⟨ha, hall⟩
        refine ⟨?_, fun w hw => hall w (by simp [hw])⟩
        rw [ha, hall x (by simp)]
        rfl

theorem word4_eq_zero {b0 b1 b2 b3 : Nat} :
    word4 b0 b1 b2 b3 = 0 ↔ (b0 = 0 ∧ b1 = 0 ∧ b2 = 0 ∧ b3 = 0) := by
  rw [word4]
  omega

theorem wordsOf_zero :
    ∀ (bytes : List Nat),
      ((∀ w ∈ wordsOf bytes, w = 0) ↔ ∀ b ∈ bytes, b = 0) := by
  intro bytes
  induction bytes using wordsOf.induct with
  | case1 => simp [wordsOf]
  | case2 b0 =>
      simp [wordsOf, word4_eq_zero]
  | case3 b0 b1 =>
      simp [wordsOf, word4_eq_zero]
  | case4 b0 b1 b2 =>
      simp [wordsOf, word4_eq_zero]
  | case5 b0 b1 b2 b3 rest ih =>
      simp only [wordsOf, List.mem_cons, forall_eq_or_imp, word4_eq_zero, ih]
      constructor
      · rintro ⟨⟨h0, h1, h2, h3⟩, hrest⟩
        exact ⟨h0, h1, h2, h3, hrest⟩
      · rintro ⟨h0, h1, h2, h3, hrest⟩
        exact ⟨⟨h0, h1, h2, h3⟩, hrest⟩

/-- Claim C8: bitwize_zero returns true exactly when every byte of the
value is zero. -/
theorem claim8_bitwize_zero (bytes : List Nat) :
    bitwize_zero bytes = true ↔ ∀ b ∈ bytes, b = 0 := by
  rw [bitwize_zero, decide_eq_true_iff, lor_foldl_eq_zero]
  rw [wordsOf_zero]
  simp

/-- Claim C10: every copy of a handle starts with its accumulator equal to
the identity of the reducer and own_device_ptr false; hence, when
combine(x, identity) = x, destroying a host side copy that did not
successfully set up for a device launch (its parent pointer stayed non
null) folds only the identity into its parent and leaves the accumulated
value of the parent unchanged. -/
theorem claim10_copy_identity {α : Type} (r : Reducer α)
    (other : ReduceData α) (oP setupOk : Bool) (parentValue : α)
    (hid : ∀ x, r.combine x r.identity = x) :
    ((reduceDataCopy r other).value = r.identity
      ∧ (reduceDataCopy r other).own_device_ptr = false)
    ∧ ((reduceCopyHost r oP other setupOk).parentNonNull = true →
        destroyHostCopy r (reduceCopyHost r oP other setupOk) parentValue
          = parentValue) := by
  refine ⟨⟨rfl, rfl⟩, ?_⟩
  intro hpn
  rw [destroyHostCopy, if_pos hpn]
  have hv : (reduceCopyHost r oP other setupOk).val.value = r.identity := by
    rw [reduceCopyHost]
    by_cases hc : (oP && setupOk) = true
    · rw [if_pos hc]
      rfl
    · rw [if_neg hc]
      rfl
  rw [hv]
  exact hid parentValue

theorem claim10_copy_identity_witness :
    (∀ x : Int, sumInt.combine x sumInt.identity = x) ∧
    (((reduceDataCopy sumInt ⟨42, true⟩).value = sumInt.identity
      ∧ (reduceDataCopy sumInt ⟨42, true⟩).own_device_ptr = false)
    ∧ ((reduceCopyHost sumInt true ⟨42, true⟩ false).parentNonNull = true →
        destroyHostCopy sumInt (reduceCopyHost sumInt true ⟨42, true⟩ false)
          9 = 9)) :=
  ⟨fun x => by simp [sumInt],
    claim10_copy_identity sumInt ⟨42, true⟩ true false 9
      (fun x => by simp [sumInt])⟩

end RAJACuda
